import Mathlib

/-!
# Verification of the csview / csvi CSV editor core

Shallow embedding of the editor's data model and command engine.

* The cell/row model and the streaming decoder (`ReadLine`/`Rebuild` of the
  `uncsv` package) are modelled from the specification, since the `uncsv`
  sources are not part of the repository snapshot; every definition taken
  from the specification carries a doc comment starting with
  `Modelled from the spec:`.
* Everything else (the key handlers of `Config.edit` in `main.go`, the
  write-protect checks, `isEmptyRow`, the prefetch / idle / drain ingestion
  loops, `searchForward` / `searchBackward` and the per-line render cache
  of `drawPage`) is translated directly from the Go sources.
-/

namespace Csvi

/-! ## Generic list helpers (Go slice operations used by the editor) -/

/-- Insert an element at position `n`; out of range leaves the list unchanged
(callers in the editor always stay in range). -/
def insertAt (a : α) : Nat → List α → List α
  | 0, l => a :: l
  | _ + 1, [] => []
  | n + 1, b :: l => b :: insertAt a n l

/-- Remove the element at position `n`; out of range leaves the list
unchanged. Mirrors Go's `copy`-and-truncate cell deletion. -/
def eraseAt : Nat → List α → List α
  | _, [] => []
  | 0, _ :: l => l
  | n + 1, b :: l => b :: eraseAt n l

/-- Apply `f` to the element at position `n` (in-place update through a Go
pointer or slice index). -/
def modifyAt (f : α → α) : Nat → List α → List α
  | _, [] => []
  | 0, b :: l => f b :: l
  | n + 1, b :: l => b :: modifyAt f n l

/-! ## The cell / row data model

Modelled from the spec (§3, §4.1): the `uncsv` package sources are not in
the repository snapshot; `Cell` carries the decoded text, the original
source representation, and the modified / quoted flags. -/

/-- Modelled from the spec: a single field of a row (`uncsv.Cell`), with
decoded text, original source representation, modified flag and quoted
flag. -/
structure Cell where
  text : List Char
  original : List Char
  modified : Bool
  quoted : Bool
deriving DecidableEq, Repr

/-- Modelled from the spec: per-document configuration (`uncsv.Mode`):
field delimiter and default line terminator. Encoding and BOM handling are
outside the byte-level model. -/
structure Mode where
  comma : Char
  defaultTerm : List Char
deriving DecidableEq, Repr

/-- Modelled from the spec: a row is an ordered sequence of cells plus the
line terminator that followed it in the source (`"\n"`, `"\r\n"`, or `[]`
meaning last line without terminator). -/
structure Row where
  cells : List Cell
  term : List Char
deriving DecidableEq, Repr

instance : Inhabited Cell := ⟨⟨[], [], false, false⟩⟩
instance : Inhabited Row := ⟨⟨[], []⟩⟩

/-- Modelled from the spec: dequoting the interior of a quoted original
(doubled quotes collapse, a stray quote is tolerated). -/
def unquoteInner : List Char → List Char
  | [] => []
  | '"' :: '"' :: rest => '"' :: unquoteInner rest
  | '"' :: rest => unquoteInner rest
  | c :: rest => c :: unquoteInner rest

/-- Modelled from the spec: the decoded text of an original source
representation: strip the quoting if present, otherwise the text is the
original itself. -/
def cellTextOf (orig : List Char) : List Char :=
  match orig with
  | '"' :: rest => unquoteInner rest
  | _ => orig

/-- Modelled from the spec: a freshly decoded, unmodified cell recording
its original representation verbatim. -/
def decodeCell (orig : List Char) : Cell :=
  { text := cellTextOf orig
    original := orig
    modified := false
    quoted := orig.head? = some '"' }

/-- Modelled from the spec: a new text needs quoting iff it contains the
delimiter, a double quote, or a line break. -/
def needsQuote (mode : Mode) (text : List Char) : Bool :=
  text.any fun c => c = mode.comma || c = '"' || c = '\n' || c = '\r'

/-- Modelled from the spec: quote-encode a text (wrap in quotes, double
every interior quote). -/
def encodeQuoted (text : List Char) : List Char :=
  '"' :: (text.flatMap fun c => if c = '"' then ['"', '"'] else [c]) ++ ['"']

/-- Modelled from the spec: `Cell.serialize` / the per-cell part of
`Row.Rebuild`: an unmodified cell reproduces its original representation
byte for byte; a modified cell synthesizes quoted or bare text per the
quoted flag. -/
def Cell.serialize (mode : Mode) (c : Cell) : List Char :=
  if c.modified then
    if c.quoted then encodeQuoted c.text else c.text
  else c.original

/-- Modelled from the spec: `setText` on a replaced cell — marks it
modified, keeps the pre-edit original for single-level restore, recomputes
the quoted flag from the new text. -/
def replaceCell (mode : Mode) (c : Cell) (t : List Char) : Cell :=
  { text := t
    original := c.original
    modified := true
    quoted := needsQuote mode t }

/-- Modelled from the spec: a brand-new cell created by a cell-insert
command. -/
def newCellFromText (mode : Mode) (t : List Char) : Cell :=
  { text := t
    original := []
    modified := true
    quoted := needsQuote mode t }

/-- Modelled from the spec: `Cell.Restore` — discard edits, reset to the
original representation, clear the modified flag. -/
def Cell.restore (c : Cell) : Cell := decodeCell c.original

/-- Modelled from the spec: `Cell.Quote` — force the quoted form without
changing the decoded text. -/
def Cell.quote (c : Cell) : Cell := { c with quoted := true }

/-! ## The streaming decoder and the serializer (round trip, C1) -/

/-- Join completed cell originals, a delimiter between adjacent cells
(`Row.Rebuild` layout). -/
def joinCells (mode : Mode) : List (List Char) → List Char
  | [] => []
  | [c] => c
  | c :: rest => c ++ mode.comma :: joinCells mode rest

/-- Modelled from the spec: `Row.Rebuild` — serialize every cell and append
the row's recorded line terminator. -/
def Row.rebuild (mode : Mode) (r : Row) : List Char :=
  joinCells mode (r.cells.map (Cell.serialize mode)) ++ r.term

/-- Modelled from the spec: `writeCsvTo` without encoding conversion —
concatenation of each row's `Rebuild`. -/
def serializeDoc (mode : Mode) (rows : List Row) : List Char :=
  (rows.map (Row.rebuild mode)).flatten

/-- Turn the decoder's accumulators into a finished row: completed cell
originals are held most-recent-first in `cellsAcc`, the current cell's
characters reversed in `cellAcc`. -/
def finishRow (cellAcc : List Char) (cellsAcc : List (List Char)) (term : List Char) : Row :=
  { cells := ((cellAcc.reverse :: cellsAcc).reverse).map decodeCell
    term := term }

/-- Modelled from the spec: the tolerant streaming CSV decoder
(`uncsv.ReadLine` iterated to exhaustion). A quote character toggles the
in-quotes state; outside quotes the delimiter ends a cell, `"\n"` ends a
row, and a row whose accumulated cell ends in `'\r'` just before the
`'\n'` records a CRLF terminator. End of input ends the final row with an
empty terminator. Malformed quoting never fails: remaining text is taken
literally. -/
def parseDocAux (mode : Mode) : List Char → Bool → List Char → List (List Char) → List Row
  | [], _, cellAcc, cellsAcc => [finishRow cellAcc cellsAcc []]
  | c :: rest, q, cellAcc, cellsAcc =>
    if c = '"' then
      parseDocAux mode rest (!q) (c :: cellAcc) cellsAcc
    else if q then
      parseDocAux mode rest q (c :: cellAcc) cellsAcc
    else if c = mode.comma then
      parseDocAux mode rest false [] (cellAcc.reverse :: cellsAcc)
    else if c = '\n' then
      match cellAcc with
      | '\r' :: cellRest =>
        finishRow cellRest cellsAcc ['\r', '\n'] :: parseDocAux mode rest false [] []
      | _ =>
        finishRow cellAcc cellsAcc ['\n'] :: parseDocAux mode rest false [] []
    else
      parseDocAux mode rest q (c :: cellAcc) cellsAcc

/-- Modelled from the spec: decode a whole byte stream into the document's
rows. -/
def decodeDoc (mode : Mode) (s : List Char) : List Row :=
  parseDocAux mode s false [] []

/-- The source bytes already consumed into the decoder's accumulators:
every completed cell was followed by a delimiter. -/
def pendingBytes (mode : Mode) (cellsAcc : List (List Char)) (cellAcc : List Char) : List Char :=
  (cellsAcc.reverse.map (fun c => c ++ [mode.comma])).flatten ++ cellAcc.reverse

/-! ## Ingestion: prefetch, idle step, and the write command's drain

Translated from `Config.edit` in `src/main.go`: the initial prefetch loop
(lines 442-458), the idle-time ingestion step inside `keyWorker.GetOr`
(lines 514-534), and the synchronous drain of the `"w"` handler (lines
823-840). The fetch source is modelled as the list of rows it will still
deliver; its last row is delivered together with `io.EOF`, exactly as
`uncsv.ReadLine` reports the final row of the input. -/

/-- `isEmptyRow` (src/main.go:369): a row with no cell, or exactly one cell
whose original representation is empty. -/
def isEmptyRow (r : Row) : Bool :=
  match r.cells with
  | [] => true
  | [c] => c.original.isEmpty
  | _ => false

/-- One call of the fetch closure: the last remaining row is delivered
together with `io.EOF` (`none` models the unreachable call after
exhaustion). -/
def fetchStep : List Row → Option (Row × Bool × List Row)
  | [] => none
  | [r] => some (r, true, [])
  | r :: rest => some (r, false, rest)

/-- The initial prefetch loop (src/main.go:443-458): pull up to `n` rows
(`n = 100` in the source); at `io.EOF` the fetch source is forgotten and an
all-empty final row is dropped instead of pushed. Returns the grown
document and the remaining fetch source (`none` once exhausted). -/
def prefetch : Nat → List Row → List Row → List Row × Option (List Row)
  | 0, doc, src => (doc, some src)
  | _ + 1, doc, [] => (doc, none)
  | n + 1, doc, src => match fetchStep src with
    | none => (doc, none)
    | some (r, true, _) => if isEmptyRow r then (doc, none) else (doc ++ [r], none)
    | some (r, false, rest) => prefetch n (doc ++ [r]) rest

/-- The idle-time ingestion step run while waiting for a key
(src/main.go:514-534): fetch one row; at `io.EOF` an all-empty row is
dropped, otherwise the row is pushed; the boolean reports whether ingestion
should continue. -/
def idleStep (doc : List Row) (src : List Row) : List Row × Option (List Row) × Bool :=
  match fetchStep src with
  | none => (doc, none, false)
  | some (r, true, _) => if isEmptyRow r then (doc, none, false) else (doc ++ [r], none, false)
  | some (r, false, rest) => (doc ++ [r], some rest, true)

/-- The synchronous drain of the `"w"` handler (src/main.go:824-836): every
fetched row is pushed unconditionally, the final one included, and the loop
stops at `io.EOF`. -/
def drainLoop : List Row → List Row → List Row
  | doc, [] => doc
  | doc, [r] => doc ++ [r]
  | doc, r :: rest => drainLoop (doc ++ [r]) rest

/-- The `"w"` handler's materialization step (src/main.go:823-836): when
the fetch source is still live it is drained completely before anything is
serialized. -/
def wStep : List Row × Option (List Row) → List Row × Option (List Row)
  | (doc, none) => (doc, none)
  | (doc, some src) => (drainLoop doc src, none)

/-- The bytes the write command hands to the output file: the document is
materialized by `wStep` first, then serialized. -/
def writeOutBytes (mode : Mode) (st : List Row × Option (List Row)) : List Char :=
  serializeDoc mode (wStep st).1

/-! ## The edit/command engine

Translated from `Config.edit` in `src/main.go` (the `switch ch` dispatch,
lines 552-841, and the cursor-column clamp at lines 843-847). Rows live in
a doubly linked list in the source (`container/list`); the model uses a
list with the cursor as an index, mirroring each handler's splicing and
cursor relinking. -/

/-- The relevant fields of `Config` (src/main.go:326-337). -/
structure Config where
  readOnly : Bool
  protectHeader : Bool
  headerLines : Nat
  fixColumn : Bool
  mode : Mode

/-- The editor's mutable state inside the main loop: the document rows, the
cursor row index, the cursor column, the one-slot clipboard and the status
message of the current iteration. -/
structure EState where
  rows : List Row
  rowIdx : Nat
  col : Nat
  kill : List Char
  msg : List Char
deriving DecidableEq, Repr

/-- The row the cursor is on. -/
def curRow (st : EState) : Row := st.rows.getD st.rowIdx default

def msgReadOnly : List Char := "Read Only Mode !".toList
def msgProtectHeader : List Char := "Header is protected".toList
def msgColumnFixed : List Char := "The order of Columns is fixed !".toList

/-- `Config.checkWriteProtect` (src/main.go:381-393): header protection is
tested first, then read-only mode. -/
def checkWriteProtect (cfg : Config) (st : EState) : Option (List Char) :=
  if cfg.protectHeader ∧ st.rowIdx < cfg.headerLines then some msgProtectHeader
  else if cfg.readOnly then some msgReadOnly
  else none

/-- `Config.checkWriteProtectAndColumn` (src/main.go:395-405). -/
def checkWriteProtectAndColumn (cfg : Config) (st : EState) : Option (List Char) :=
  match checkWriteProtect cfg st with
  | some m => some m
  | none => if cfg.fixColumn then some msgColumnFixed else none

/-- Modelled from the spec: `uncsv.NewRow` — a fresh row holding a single
empty cell; its terminator is the mode's default line terminator (the
`"O"` handler inserts it mid-document without touching its terminator). -/
def NewRow (mode : Mode) : Row :=
  { cells := [{ text := [], original := [], modified := false, quoted := false }]
    term := mode.defaultTerm }

/-- `Row.Replace(col, text, mode)`: replace the cell at `col` with a
modified cell carrying the new text. -/
def rowReplace (mode : Mode) (col : Nat) (t : List Char) (r : Row) : Row :=
  { r with cells := r.cells.set col (replaceCell mode (r.cells.getD col default) t) }

/-- The fixed-column padding loop of the `"o"`/`"O"` handlers
(src/main.go:641-645): prepend empty cells until the new row matches the
cursor row's cell count. -/
def padCells (mode : Mode) (target : Nat) (r : Row) : Row :=
  { r with cells := List.replicate (target - r.cells.length) (newCellFromText mode []) ++ r.cells }

/-- The editor's key commands. Commands that open a text-entry sub-dialog
carry its outcome: `some text` when the user confirmed, `none` when the
dialog was cancelled. -/
inductive Key where
  | down
  | up
  | left
  | right
  | colHome
  | colEnd
  | docHome
  | docEnd
  | rowAfter (dialog : Option (List Char))
  | rowBefore (dialog : Option (List Char))
  | rowDelete
  | cellInsert (dialog : Option (List Char))
  | cellAppend (dialog : Option (List Char))
  | cellReplace (dialog : Option (List Char))
  | restoreKey
  | yank
  | paste
  | cellDelete
  | quoteToggle
deriving DecidableEq, Repr

/-- One dispatch of the `switch ch` statement of `Config.edit`
(src/main.go:552-841), without the trailing cursor clamp. -/
def applyKey (cfg : Config) (st : EState) : Key → EState
  | .down =>
    if st.rowIdx + 1 < st.rows.length then { st with rowIdx := st.rowIdx + 1 } else st
  | .up =>
    if 0 < st.rowIdx then { st with rowIdx := st.rowIdx - 1 } else st
  | .left =>
    if 0 < st.col then { st with col := st.col - 1 } else st
  | .right => { st with col := st.col + 1 }
  | .colHome => { st with col := 0 }
  | .colEnd => { st with col := (curRow st).cells.length - 1 }
  | .docHome => { st with rowIdx := 0, col := 0 }
  | .docEnd => { st with rowIdx := st.rows.length - 1 }
  | .rowAfter dialog =>
    match checkWriteProtect cfg st with
    | some m => { st with msg := m }
    | none =>
      let cur := curRow st
      let newRow := { NewRow cfg.mode with term := cur.term }
      let rows₁ :=
        if cur.term = [] then
          modifyAt (fun r => { r with term := cfg.mode.defaultTerm }) st.rowIdx st.rows
        else st.rows
      let newRow := if cfg.fixColumn then padCells cfg.mode cur.cells.length newRow else newRow
      let rows₂ := insertAt newRow (st.rowIdx + 1) rows₁
      let idx := st.rowIdx + 1
      let text := dialog.getD []
      let nr := rows₂.getD idx default
      let newCol := if st.col ≥ nr.cells.length then nr.cells.length - 1 else st.col
      { st with rows := modifyAt (rowReplace cfg.mode newCol text) idx rows₂, rowIdx := idx }
  | .rowBefore dialog =>
    match checkWriteProtect cfg st with
    | some m => { st with msg := m }
    | none =>
      let cur := curRow st
      let newRow := NewRow cfg.mode
      let newRow := if cfg.fixColumn then padCells cfg.mode cur.cells.length newRow else newRow
      let rows₁ := insertAt newRow st.rowIdx st.rows
      let text := dialog.getD []
      let nr := rows₁.getD st.rowIdx default
      let newCol := if st.col ≥ nr.cells.length then nr.cells.length - 1 else st.col
      { st with rows := modifyAt (rowReplace cfg.mode newCol text) st.rowIdx rows₁ }
  | .rowDelete =>
    match checkWriteProtect cfg st with
    | some m => { st with msg := m }
    | none =>
      if st.rows.length ≤ 1 then st
      else
        let removed := curRow st
        let rows' := eraseAt st.rowIdx st.rows
        if st.rowIdx = 0 then { st with rows := rows', rowIdx := 0 }
        else if st.rowIdx < rows'.length then { st with rows := rows' }
        else
          { st with
            rows := modifyAt (fun r => { r with term := removed.term }) (st.rowIdx - 1) rows'
            rowIdx := st.rowIdx - 1 }
  | .cellInsert dialog =>
    match checkWriteProtectAndColumn cfg st with
    | some m => { st with msg := m }
    | none =>
      match dialog with
      | none => st
      | some t =>
        let cur := curRow st
        if cur.cells.length = 1 ∧ (cur.cells.getD 0 default).text = [] then
          { st with rows := modifyAt (rowReplace cfg.mode st.col t) st.rowIdx st.rows }
        else
          { st with
            rows := modifyAt
              (fun r => { r with cells := insertAt (newCellFromText cfg.mode t) st.col r.cells })
              st.rowIdx st.rows
            col := st.col + 1 }
  | .cellAppend dialog =>
    match checkWriteProtectAndColumn cfg st with
    | some m => { st with msg := m }
    | none =>
      let cur := curRow st
      if cur.cells.length = 1 ∧ (cur.cells.getD 0 default).text = [] then
        match dialog with
        | none => st
        | some t => { st with rows := modifyAt (rowReplace cfg.mode st.col t) st.rowIdx st.rows }
      else
        let col₁ := st.col + 1
        let rows₁ := modifyAt
          (fun r => { r with cells := insertAt (newCellFromText cfg.mode []) col₁ r.cells })
          st.rowIdx st.rows
        match dialog with
        | none =>
          { st with
            rows := modifyAt (fun r => { r with cells := eraseAt col₁ r.cells }) st.rowIdx rows₁
            col := col₁ - 1 }
        | some t =>
          { st with rows := modifyAt (rowReplace cfg.mode col₁ t) st.rowIdx rows₁, col := col₁ }
  | .cellReplace dialog =>
    match checkWriteProtect cfg st with
    | some m => { st with msg := m }
    | none =>
      let q := ((curRow st).cells.getD st.col default).quoted
      match dialog with
      | none => st
      | some t =>
        let rows₁ := modifyAt (rowReplace cfg.mode st.col t) st.rowIdx st.rows
        if q then
          { st with
            rows := modifyAt (fun r => { r with cells := modifyAt Cell.quote st.col r.cells })
              st.rowIdx rows₁ }
        else { st with rows := rows₁ }
  | .restoreKey =>
    { st with
      rows := modifyAt (fun r => { r with cells := modifyAt Cell.restore st.col r.cells })
        st.rowIdx st.rows }
  | .yank =>
    let t := ((curRow st).cells.getD st.col default).text
    { st with kill := t, msg := "yanked the current cell: ".toList ++ t }
  | .paste =>
    match checkWriteProtect cfg st with
    | some m => { st with msg := m }
    | none =>
      { st with
        rows := modifyAt (rowReplace cfg.mode st.col st.kill) st.rowIdx st.rows
        msg := "pasted: ".toList ++ st.kill }
  | .cellDelete =>
    match checkWriteProtectAndColumn cfg st with
    | some m => { st with msg := m }
    | none =>
      if (curRow st).cells.length ≤ 1 then
        { st with rows := modifyAt (rowReplace cfg.mode 0 []) st.rowIdx st.rows }
      else
        { st with
          rows := modifyAt (fun r => { r with cells := eraseAt st.col r.cells }) st.rowIdx st.rows }
  | .quoteToggle =>
    let cell := (curRow st).cells.getD st.col default
    if cell.quoted then
      { st with rows := modifyAt (rowReplace cfg.mode st.col cell.text) st.rowIdx st.rows }
    else
      { st with
        rows := modifyAt (fun r => { r with cells := modifyAt Cell.quote st.col r.cells })
          st.rowIdx st.rows }

/-- The commands whose handlers call `checkWriteProtect` or
`checkWriteProtectAndColumn` before mutating (src/main.go: cases `"o"`,
`"O"`, `"D"`, `"i"`, `"a"`, `"r"`, `"p"`, `"d"`/`"x"`). The handlers of
`"u"` (restore) and `"\""` (quote toggle) perform no check. -/
def checksProtect : Key → Bool
  | .rowAfter _ => true
  | .rowBefore _ => true
  | .rowDelete => true
  | .cellInsert _ => true
  | .cellAppend _ => true
  | .cellReplace _ => true
  | .paste => true
  | .cellDelete => true
  | _ => false

/-- The cursor-column clamp at the bottom of every main-loop iteration
(src/main.go:843-847). -/
def clampCol (st : EState) : EState :=
  let L := (curRow st).cells.length
  if L = 0 then { st with col := 0 }
  else if st.col ≥ L then { st with col := L - 1 }
  else st

/-- One full main-loop iteration for one key: the status message is cleared
when the key arrives (src/main.go:538), the handler runs, and the cursor
column is clamped. -/
def step (cfg : Config) (st : EState) (k : Key) : EState :=
  clampCol (applyKey cfg { st with msg := [] } k)

/-- A finite sequence of key commands. -/
def applyKeys (cfg : Config) (st : EState) (ks : List Key) : EState :=
  ks.foldl (step cfg) st

/-- The structural document invariant: at least one row, and every row has
at least one cell. -/
def docOK (rows : List Row) : Prop :=
  rows ≠ [] ∧ ∀ r ∈ rows, r.cells ≠ []

/-- The cursor invariant at the top of every main-loop iteration: the
cursor row exists and the cursor column indexes one of its cells. -/
def cursorOK (st : EState) : Prop :=
  st.rowIdx < st.rows.length ∧ st.col < (curRow st).cells.length

/-- The line-terminator invariant: only the last row of the document may
carry an empty (end-of-file) terminator. -/
def termOK (rows : List Row) : Prop :=
  ∀ i < rows.length - 1, (rows.getD i default).term ≠ []

instance (rows : List Row) : Decidable (docOK rows) := by
  unfold docOK
  infer_instance

instance (st : EState) : Decidable (cursorOK st) := by
  unfold cursorOK
  infer_instance

instance (rows : List Row) : Decidable (termOK rows) := by
  unfold termOK
  infer_instance

/-! ## Search (translated from `searchForward` / `searchBackward` in
`src/unnamed/part_001`, lines 257-287) -/

/-- `needle` is a prefix of `hay`. -/
def startsWithChars : List Char → List Char → Bool
  | [], _ => true
  | _ :: _, [] => false
  | a :: as, b :: bs => a = b && startsWithChars as bs

/-- `strings.Contains`: the needle occurs as a contiguous substring. -/
def containsStr (hay needle : List Char) : Bool :=
  startsWithChars needle hay ||
    match hay with
    | [] => false
    | _ :: t => containsStr t needle

/-- `strings.Contains` on strings. -/
def containsStrS (hay needle : String) : Bool := containsStr hay.toList needle.toList

/-- The inner loop of `searchForward`: scan the remaining cells of a row
left to right, `idx` being the index of the first one. -/
def scanCellsFrom (target : String) : List String → Nat → Option Nat
  | [], _ => none
  | cell :: rest, idx =>
    if containsStrS cell target then some idx else scanCellsFrom target rest (idx + 1)

/-- The outer loop of `searchForward`: scan rows downward; the first row is
scanned from column `c`, later rows from column 0. -/
def sfRows (target : String) : List (List String) → Nat → Nat → Option (Nat × Nat)
  | [], _, _ => none
  | row :: rest, rIdx, c =>
    match scanCellsFrom target (row.drop c) c with
    | some j => some (rIdx, j)
    | none => sfRows target rest (rIdx + 1) 0

/-- `searchForward` (src/unnamed/part_001:257-270): start at the cell after
`(r, c)` in reading order; `some (r', c')` is Go's `(true, r', c')`, `none`
its not-found return. -/
def searchForward (grid : List (List String)) (r c : Nat) (target : String) :
    Option (Nat × Nat) :=
  sfRows target (grid.drop r) r (c + 1)

/-- The inner loop of `searchBackward`: scan columns `c, c-1, …, 0` of a
row. -/
def scanBackAux (target : String) (row : List String) : Nat → Option Nat
  | 0 => if containsStrS (row.getD 0 "") target then some 0 else none
  | j + 1 =>
    if containsStrS (row.getD (j + 1) "") target then some (j + 1)
    else scanBackAux target row j

/-- Scan a whole row right to left (`c = len(row)-1` in the source); an
empty row is skipped. -/
def scanBackFull (target : String) (row : List String) : Option Nat :=
  match row with
  | [] => none
  | _ :: _ => scanBackAux target row (row.length - 1)

/-- The outer loop of `searchBackward` over the rows above the start row,
nearest first (`rowsRev` is `(grid.take r).reverse`, so the head's row
index is the length of the tail). -/
def sbRows (target : String) : List (List String) → Option (Nat × Nat)
  | [] => none
  | row :: rest =>
    match scanBackFull target row with
    | some j => some (rest.length, j)
    | none => sbRows target rest

/-- `searchBackward` (src/unnamed/part_001:272-287): start at the cell
before `(r, c)` in reading order (the `c--` on entry); when the start
column is 0 the whole row is already exhausted and scanning starts on the
row above. -/
def searchBackward (grid : List (List String)) (r c : Nat) (target : String) :
    Option (Nat × Nat) :=
  match c with
  | 0 => sbRows target ((grid.take r).reverse)
  | c' + 1 =>
    match scanBackAux target (grid.getD r []) c' with
    | some j => some (r, j)
    | none => sbRows target ((grid.take r).reverse)

/-- The number of cells of the grid containing the target (used to state
"the term occurs exactly once"). -/
def occurrences (grid : List (List String)) (target : String) : Nat :=
  (grid.map fun row => (row.filter fun cell => containsStrS cell target).length).sum

/-- The target occurs (as a substring) in the cell at grid position
`(i, j)`. -/
def occursAt (grid : List (List String)) (target : String) (i j : Nat) : Prop :=
  i < grid.length ∧ j < (grid.getD i []).length ∧
    containsStrS ((grid.getD i []).getD j "") target = true

/-- All grid positions whose cell contains the target, in reading order
(used to state "the term occurs exactly once" as a computable condition). -/
def occPositions (grid : List (List String)) (target : String) : List (Nat × Nat) :=
  (List.range grid.length).flatMap fun i =>
    ((List.range (grid.getD i []).length).filter fun j =>
      containsStrS ((grid.getD i []).getD j "") target).map fun j => (i, j)

/-! ## The per-line render cache (translated from `drawPage`,
`src/main.go:143-173`)

A frame is the list of freshly rendered in-memory line contents, row 0
first. The terminal screen and the cache are maps from screen-row index to
line content; the write trace records which screen rows were actually
written. -/

/-- One line of `drawPage`'s loop (src/main.go:160-165): render into a
buffer, compare with the cache entry for this screen row, and only on a
difference write the line to the terminal and store it in the cache. -/
def renderLine (line : String) (i : Nat)
    (sc : (Nat → String) × (Nat → String) × List Nat) :
    (Nat → String) × (Nat → String) × List Nat :=
  if sc.2.1 i = line then sc
  else
    ((fun j => if j = i then line else sc.1 j),
     (fun j => if j = i then line else sc.2.1 j),
     sc.2.2 ++ [i])

/-- `drawPage` with the cache: process the frame's lines top to bottom. -/
def drawPageCached : List String → Nat → ((Nat → String) × (Nat → String) × List Nat) →
    (Nat → String) × (Nat → String) × List Nat
  | [], _, sc => sc
  | l :: rest, i, sc => drawPageCached rest (i + 1) (renderLine l i sc)

/-- The cache-free full redraw the spec compares against: every line of the
frame is written to the terminal unconditionally. -/
def drawPageFull : List String → Nat → (Nat → String) → Nat → String
  | [], _, s => s
  | l :: rest, i, s => drawPageFull rest (i + 1) (fun j => if j = i then l else s j)

/-- A sequence of frames rendered through the cache (screen, cache). -/
def framesCached : List (List String) → ((Nat → String) × (Nat → String)) →
    (Nat → String) × (Nat → String)
  | [], sc => sc
  | f :: fs, (s, c) =>
    let r := drawPageCached f 0 (s, c, [])
    framesCached fs (r.1, r.2.1)

/-- The same sequence of frames redrawn in full every time. -/
def framesFull : List (List String) → (Nat → String) → Nat → String
  | [], s => s
  | f :: fs, s => framesFull fs (drawPageFull f 0 s)

/-! ## Concrete instances used by examples and witnesses -/

/-- A comma-separated mode with LF default terminator. -/
def mode0 : Mode := { comma := ',', defaultTerm := ['\n'] }

/-- A configuration with no protection enabled. -/
def cfg0 : Config :=
  { readOnly := false, protectHeader := false, headerLines := 0, fixColumn := false
    mode := mode0 }

/-- `cfg0` with read-only mode enabled. -/
def cfgRO : Config := { cfg0 with readOnly := true }

/-- An editor state with the cursor at the origin and empty clipboard. -/
def stateOf (rows : List Row) : EState :=
  { rows := rows, rowIdx := 0, col := 0, kill := [], msg := [] }

/-- A cell whose original text `"a"` was edited to `"b"` (modified flag
set). -/
def cellBA : Cell := { text := ['b'], original := ['a'], modified := true, quoted := false }

/-! # Theorems -/

/-! ## List helper lemmas -/

theorem eraseAt_insertAt (a : α) : ∀ (n : Nat) (l : List α), eraseAt n (insertAt a n l) = l
  | 0, [] => rfl
  | 0, _ :: _ => rfl
  | _ + 1, [] => rfl
  | n + 1, b :: l => by simp [insertAt, eraseAt, eraseAt_insertAt a n l]

theorem length_insertAt (a : α) : ∀ (n : Nat) (l : List α),
    (insertAt a n l).length = if n ≤ l.length then l.length + 1 else l.length
  | 0, l => by simp [insertAt]
  | _ + 1, [] => by simp [insertAt]
  | n + 1, b :: l => by
    simp only [insertAt, List.length_cons, length_insertAt a n l]
    by_cases h : n ≤ l.length <;> simp [h, Nat.succ_le_succ_iff]

theorem length_eraseAt : ∀ (n : Nat) (l : List α),
    (eraseAt n l).length = if n < l.length then l.length - 1 else l.length
  | _, [] => by simp [eraseAt]
  | 0, _ :: l => by simp [eraseAt]
  | n + 1, b :: l => by
    simp only [eraseAt, List.length_cons, length_eraseAt n l]
    by_cases h : n < l.length
    · simp only [h, if_true, Nat.succ_lt_succ_iff]
      omega
    · simp [h, Nat.succ_lt_succ_iff]

theorem length_modifyAt (f : α → α) : ∀ (n : Nat) (l : List α),
    (modifyAt f n l).length = l.length
  | _, [] => by simp [modifyAt]
  | 0, _ :: _ => by simp [modifyAt]
  | n + 1, b :: l => by simp [modifyAt, length_modifyAt f n l]

theorem mem_insertAt (a : α) : ∀ (n : Nat) (l : List α) (x : α),
    x ∈ insertAt a n l → x = a ∨ x ∈ l
  | 0, l, x => by simp [insertAt]
  | _ + 1, [], x => by simp [insertAt]
  | n + 1, b :: l, x => by
    simp only [insertAt, List.mem_cons]
    rintro (h | h)
    · tauto
    · rcases mem_insertAt a n l x h with h' | h' <;> tauto

theorem mem_eraseAt : ∀ (n : Nat) (l : List α) (x : α), x ∈ eraseAt n l → x ∈ l
  | _, [], x => by simp [eraseAt]
  | 0, _ :: l, x => by simp [eraseAt]; tauto
  | n + 1, b :: l, x => by
    simp only [eraseAt, List.mem_cons]
    rintro (h | h)
    · tauto
    · exact Or.inr (mem_eraseAt n l x h)

theorem mem_modifyAt (f : α → α) : ∀ (n : Nat) (l : List α) (x : α),
    x ∈ modifyAt f n l → x ∈ l ∨ ∃ y ∈ l, x = f y
  | _, [], x => by simp [modifyAt]
  | 0, b :: l, x => by
    simp only [modifyAt, List.mem_cons]
    rintro (h | h)
    · exact Or.inr ⟨b, by tauto⟩
    · tauto
  | n + 1, b :: l, x => by
    simp only [modifyAt, List.mem_cons]
    rintro (h | h)
    · tauto
    · rcases mem_modifyAt f n l x h with h' | ⟨y, hy, hxy⟩
      · tauto
      · exact Or.inr ⟨y, by tauto⟩

/-! ## Round trip of the decoder and serializer (C1) -/

theorem joinCells_concat (mode : Mode) : ∀ (xs : List (List Char)) (y : List Char),
    joinCells mode (xs ++ [y]) = (xs.map (fun c => c ++ [mode.comma])).flatten ++ y
  | [], y => by simp [joinCells]
  | [x], y => by simp [joinCells]
  | x :: x' :: xs, y => by
    have ih := joinCells_concat mode (x' :: xs) y
    simp only [List.cons_append] at ih
    show x ++ mode.comma :: joinCells mode (x' :: (xs ++ [y])) = _
    rw [ih]
    simp [List.append_assoc]

theorem pendingBytes_snoc (mode : Mode) (cellsAcc : List (List Char)) (cellAcc : List Char)
    (c : Char) :
    pendingBytes mode cellsAcc (c :: cellAcc) = pendingBytes mode cellsAcc cellAcc ++ [c] := by
  simp [pendingBytes, List.reverse_cons, List.append_assoc]

theorem pendingBytes_push (mode : Mode) (cellsAcc : List (List Char)) (cellAcc : List Char) :
    pendingBytes mode (cellAcc.reverse :: cellsAcc) [] =
      pendingBytes mode cellsAcc cellAcc ++ [mode.comma] := by
  simp [pendingBytes, List.reverse_cons, List.map_append, List.flatten_append,
    List.append_assoc]

theorem serialize_decodeCell (mode : Mode) (o : List Char) :
    Cell.serialize mode (decodeCell o) = o := by
  simp [Cell.serialize, decodeCell]

theorem rebuild_finishRow (mode : Mode) (cellAcc : List Char) (cellsAcc : List (List Char))
    (term : List Char) :
    Row.rebuild mode (finishRow cellAcc cellsAcc term) =
      pendingBytes mode cellsAcc cellAcc ++ term := by
  have hmap : ∀ l : List (List Char), (l.map decodeCell).map (Cell.serialize mode) = l := by
    intro l
    have hfun : Cell.serialize mode ∘ decodeCell = id := funext (serialize_decodeCell mode)
    rw [List.map_map, hfun, List.map_id]
  simp only [Row.rebuild, finishRow, hmap, List.reverse_cons, joinCells_concat,
    pendingBytes]

theorem serializeDoc_cons (mode : Mode) (r : Row) (rows : List Row) :
    serializeDoc mode (r :: rows) = Row.rebuild mode r ++ serializeDoc mode rows := by
  simp [serializeDoc]

theorem serializeDoc_parse (mode : Mode) (s : List Char) : ∀ (q : Bool) (cellAcc : List Char)
    (cellsAcc : List (List Char)),
    serializeDoc mode (parseDocAux mode s q cellAcc cellsAcc) =
      pendingBytes mode cellsAcc cellAcc ++ s := by
  induction s with
  | nil =>
    intro q cellAcc cellsAcc
    simp [parseDocAux, serializeDoc, rebuild_finishRow]
  | cons c rest ih =>
    intro q cellAcc cellsAcc
    by_cases hq : c = '"'
    · subst hq
      simp only [parseDocAux, if_true]
      rw [ih, pendingBytes_snoc]
      simp [List.append_assoc]
    · cases q with
      | true =>
        simp only [parseDocAux, if_true]
        rw [if_neg hq, ih, pendingBytes_snoc]
        simp [List.append_assoc]
      | false =>
        by_cases hc : c = mode.comma
        · subst hc
          simp only [parseDocAux, if_true]
          rw [if_neg hq, if_neg (by simp : ¬(false = true)), ih, pendingBytes_push]
          simp [List.append_assoc]
        · by_cases hn : c = '\n'
          · subst hn
            have h0 : pendingBytes mode [] [] = ([] : List Char) := by simp [pendingBytes]
            simp only [parseDocAux, if_true]
            rw [if_neg hq, if_neg (by simp : ¬(false = true)), if_neg hc]
            split
            · rename_i cellRest
              simp only [serializeDoc_cons, rebuild_finishRow, ih, pendingBytes_snoc, h0]
              simp [List.append_assoc]
            · simp only [serializeDoc_cons, rebuild_finishRow, ih, h0]
              simp [List.append_assoc]
          · simp only [parseDocAux, if_true]
            rw [if_neg hq, if_neg (by simp : ¬(false = true)), if_neg hc, if_neg hn, ih,
              pendingBytes_snoc]
            simp [List.append_assoc]

theorem finishRow_unmodified (a : List Char) (b : List (List Char)) (t : List Char) :
    ∀ c ∈ (finishRow a b t).cells, c.modified = false := by
  intro c hc
  simp only [finishRow, List.mem_map] at hc
  obtain ⟨o, _, rfl⟩ := hc
  rfl

theorem parse_unmodified (mode : Mode) (s : List Char) : ∀ (q : Bool) (a : List Char)
    (b : List (List Char)), ∀ r ∈ parseDocAux mode s q a b, ∀ c ∈ r.cells,
    c.modified = false := by
  induction s with
  | nil =>
    intro q a b r hr
    simp only [parseDocAux, List.mem_singleton] at hr
    subst hr
    exact finishRow_unmodified _ _ _
  | cons ch rest ih =>
    intro q a b r hr
    by_cases hq : ch = '"'
    · subst hq
      simp only [parseDocAux, if_true] at hr
      exact ih _ _ _ r hr
    · cases q with
      | true =>
        simp only [parseDocAux, if_true] at hr
        rw [if_neg hq] at hr
        exact ih _ _ _ r hr
      | false =>
        by_cases hc : ch = mode.comma
        · subst hc
          simp only [parseDocAux, if_true] at hr
          rw [if_neg hq, if_neg (by simp : ¬(false = true))] at hr
          exact ih _ _ _ r hr
        · by_cases hn : ch = '\n'
          · subst hn
            simp only [parseDocAux, if_true] at hr
            rw [if_neg hq, if_neg (by simp : ¬(false = true)), if_neg hc] at hr
            revert hr
            split
            · intro hr
              rcases List.mem_cons.mp hr with h | h
              · subst h
                exact finishRow_unmodified _ _ _
              · exact ih _ _ _ r h
            · intro hr
              rcases List.mem_cons.mp hr with h | h
              · subst h
                exact finishRow_unmodified _ _ _
              · exact ih _ _ _ r h
          · simp only [parseDocAux, if_true] at hr
            rw [if_neg hq, if_neg (by simp : ¬(false = true)), if_neg hc, if_neg hn] at hr
            exact ih _ _ _ r hr

/-- C1: round-trip fidelity of an untouched document. Decoding an input
byte stream yields rows in which every cell is unmodified, and serializing
the decoded document (each row through `Row.rebuild`, exactly what
`writeCsvTo` emits) reproduces the input byte for byte — the quoting style
of every cell, embedded newlines inside quoted fields, and each row's line
terminator (LF, CRLF, or none on the last row) included. -/
theorem C1_round_trip (mode : Mode) (s : List Char) :
    serializeDoc mode (decodeDoc mode s) = s ∧
      ∀ r ∈ decodeDoc mode s, ∀ c ∈ r.cells, c.modified = false := by
  constructor
  · have h := serializeDoc_parse mode s false [] []
    have h0 : pendingBytes mode [] [] = ([] : List Char) := by simp [pendingBytes]
    rw [decodeDoc, h, h0, List.nil_append]
  · exact parse_unmodified mode s false [] []

/-! ## Ingestion theorems (C3, C5) -/

theorem fetchStep_cons (x : Row) (l : List Row) (h : l ≠ []) :
    fetchStep (x :: l) = some (x, false, l) := by
  cases l with
  | nil => exact absurd rfl h
  | cons y ys => rfl

theorem drainLoop_eq : ∀ (doc src : List Row), drainLoop doc src = doc ++ src
  | doc, [] => by simp [drainLoop]
  | doc, [r] => by simp [drainLoop]
  | doc, r :: r' :: rest => by
    have ih := drainLoop_eq (doc ++ [r]) (r' :: rest)
    simp only [drainLoop] at ih ⊢
    rw [ih]
    simp

theorem prefetch_within (e : Row) : ∀ (init : List Row) (n : Nat) (doc : List Row),
    init.length < n →
    prefetch n doc (init ++ [e]) =
      (doc ++ init ++ (if isEmptyRow e then [] else [e]), none)
  | [], n, doc, h => by
    obtain ⟨m, rfl⟩ : ∃ m, n = m + 1 := ⟨n - 1, by omega⟩
    by_cases he : isEmptyRow e <;> simp [prefetch, fetchStep, he]
  | x :: init', n, doc, h => by
    obtain ⟨m, rfl⟩ : ∃ m, n = m + 1 := ⟨n - 1, by omega⟩
    have hm : init'.length < m := by
      simp only [List.length_cons] at h
      omega
    have ih := prefetch_within e init' m (doc ++ [x]) hm
    have hfs : fetchStep (x :: (init' ++ [e])) = some (x, false, init' ++ [e]) :=
      fetchStep_cons x _ (by simp)
    simp only [List.cons_append, prefetch, List.append_eq]
    rw [hfs]
    simp [ih, List.append_assoc]

theorem prefetch_budget (e : Row) : ∀ (n : Nat) (init : List Row) (doc : List Row),
    n ≤ init.length →
    prefetch n doc (init ++ [e]) = (doc ++ init.take n, some (init.drop n ++ [e]))
  | 0, init, doc, _ => by simp [prefetch]
  | n + 1, [], doc, h => by simp at h
  | n + 1, x :: init', doc, h => by
    have hm : n ≤ init'.length := by
      simp only [List.length_cons] at h
      omega
    have ih := prefetch_budget e n init' (doc ++ [x]) hm
    have hfs : fetchStep (x :: (init' ++ [e])) = some (x, false, init' ++ [e]) :=
      fetchStep_cons x _ (by simp)
    simp only [List.cons_append, prefetch, List.append_eq]
    rw [hfs]
    simp [ih, List.append_assoc]

theorem idleStep_last (doc : List Row) (e : Row) :
    idleStep doc [e] = (doc ++ (if isEmptyRow e then [] else [e]), none, false) := by
  by_cases he : isEmptyRow e <;> simp [idleStep, fetchStep, he]

theorem idleStep_more (doc : List Row) (r : Row) (rest : List Row) (h : rest ≠ []) :
    idleStep doc (r :: rest) = (doc ++ [r], some rest, true) := by
  simp [idleStep, fetchStep_cons r rest h]

/-- C3: issuing the write command while ingestion is still in progress
first drains the fetch source completely — every remaining row is appended
to the document and the source is exhausted — and only then serializes, so
the write routine always runs on the fully materialized document. -/
theorem C3_write_drains_first (mode : Mode) (doc src : List Row) :
    wStep (doc, some src) = (doc ++ src, none) ∧
      writeOutBytes mode (doc, some src) = serializeDoc mode (doc ++ src) ∧
      wStep (doc, none) = (doc, none) := by
  refine ⟨?_, ?_, rfl⟩
  · simp [wStep, drainLoop_eq]
  · simp [writeOutBytes, wStep, drainLoop_eq]

/-- C5 counterexample: the claim extends the trailing-empty-row drop to the
`"w"` drain path, but the drain loop (src/main.go:824-836) pushes the row
delivered together with `io.EOF` unconditionally: draining a source whose
final row is all-empty appends that empty row to the document instead of
dropping it. -/
theorem C5_counterexample :
    isEmptyRow ⟨[decodeCell []], []⟩ = true ∧
      drainLoop [⟨[decodeCell ['a']], ['\n']⟩] [⟨[decodeCell []], []⟩] =
        [⟨[decodeCell ['a']], ['\n']⟩, ⟨[decodeCell []], []⟩] := by
  constructor <;> rfl

/-- C5 (amended): the all-empty final row delivered at end-of-input is
dropped on the initial prefetch path (when end-of-input is reached within
the row budget) and on the idle-time ingestion path, and only for that very
last row — rows before the end, and the case where the budget runs out
first, are appended verbatim; the synchronous drain of the write command,
by contrast, appends every remaining row unconditionally, an all-empty
final row included. -/
theorem C5_amended (doc : List Row) (e : Row) :
    (∀ (init : List Row) (n : Nat), init.length < n →
        prefetch n doc (init ++ [e]) =
          (doc ++ init ++ (if isEmptyRow e then [] else [e]), none)) ∧
      (∀ (init : List Row) (n : Nat), n ≤ init.length →
        prefetch n doc (init ++ [e]) = (doc ++ init.take n, some (init.drop n ++ [e]))) ∧
      idleStep doc [e] = (doc ++ (if isEmptyRow e then [] else [e]), none, false) ∧
      (∀ (r : Row) (rest : List Row), rest ≠ [] →
        idleStep doc (r :: rest) = (doc ++ [r], some rest, true)) ∧
      (∀ src : List Row, drainLoop doc src = doc ++ src) :=
  ⟨fun init n h => prefetch_within e init n doc h,
   fun init n h => prefetch_budget e n init doc h,
   idleStep_last doc e,
   fun r rest h => idleStep_more doc r rest h,
   fun src => drainLoop_eq doc src⟩

/-- Witness for C5 (amended) at a concrete two-row source `"a\n"`. -/
theorem C5_amended_witness :
    prefetch 100 [] ([⟨[decodeCell ['a']], ['\n']⟩] ++ [⟨[decodeCell []], []⟩]) =
        ([⟨[decodeCell ['a']], ['\n']⟩], none) ∧
      drainLoop [] [⟨[decodeCell ['a']], ['\n']⟩, ⟨[decodeCell []], []⟩] =
        [⟨[decodeCell ['a']], ['\n']⟩, ⟨[decodeCell []], []⟩] := by
  have h := C5_amended [] ⟨[decodeCell []], []⟩
  constructor
  · have h1 := h.1 [⟨[decodeCell ['a']], ['\n']⟩] 100 (by decide)
    simpa using h1
  · exact h.2.2.2.2 _

/-! ## Editor support lemmas -/

theorem modifyAt_modifyAt (f g : α → α) : ∀ (n : Nat) (l : List α),
    modifyAt g n (modifyAt f n l) = modifyAt (fun x => g (f x)) n l
  | _, [] => by simp [modifyAt]
  | 0, b :: l => by simp [modifyAt]
  | n + 1, b :: l => by simp [modifyAt, modifyAt_modifyAt f g n l]

theorem modifyAt_id : ∀ (n : Nat) (l : List α), modifyAt (fun x => x) n l = l
  | _, [] => by simp [modifyAt]
  | 0, b :: l => by simp [modifyAt]
  | n + 1, b :: l => by simp [modifyAt, modifyAt_id n l]

theorem modifyAt_getD_self [Inhabited α] (f : α → α) : ∀ (n : Nat) (l : List α),
    n < l.length → (modifyAt f n l).getD n default = f (l.getD n default)
  | _, [], h => by simp at h
  | 0, b :: l, _ => by simp [modifyAt]
  | n + 1, b :: l, h => by
    simp only [modifyAt, List.getD_cons_succ]
    exact modifyAt_getD_self f n l (by simpa using Nat.lt_of_succ_lt_succ h)

theorem mem_modifyAt_getD [Inhabited α] (f : α → α) : ∀ (n : Nat) (l : List α) (x : α),
    x ∈ modifyAt f n l → x ∈ l ∨ (n < l.length ∧ x = f (l.getD n default))
  | _, [], x => by simp [modifyAt]
  | 0, b :: l, x => by
    simp only [modifyAt, List.mem_cons, List.getD_cons_zero, List.length_cons]
    rintro (h | h)
    · exact Or.inr ⟨Nat.succ_pos _, h⟩
    · tauto
  | n + 1, b :: l, x => by
    simp only [modifyAt, List.mem_cons, List.getD_cons_succ, List.length_cons]
    rintro (h | h)
    · tauto
    · rcases mem_modifyAt_getD f n l x h with h' | ⟨hlt, rfl⟩
      · tauto
      · exact Or.inr ⟨Nat.succ_lt_succ hlt, rfl⟩

theorem getD_mem [Inhabited α] {l : List α} {n : Nat} (h : n < l.length) :
    l.getD n default ∈ l := by
  rw [List.getD_eq_getElem l default h]
  exact List.getElem_mem h

theorem docOK_ne_nil_of_length {rows : List Row} (h : 0 < rows.length) : rows ≠ [] := by
  intro h0
  rw [h0] at h
  simp at h

theorem docOK_modifyAt {rows : List Row} {f : Row → Row} (n : Nat) (h : docOK rows)
    (hf : n < rows.length → (f (rows.getD n default)).cells ≠ []) :
    docOK (modifyAt f n rows) := by
  constructor
  · apply docOK_ne_nil_of_length
    rw [length_modifyAt]
    exact List.length_pos.mpr h.1
  · intro r hr
    rcases mem_modifyAt_getD f n rows r hr with h' | ⟨hlt, rfl⟩
    · exact h.2 r h'
    · exact hf hlt

theorem docOK_insertAt {rows : List Row} {r : Row} (n : Nat) (h : docOK rows)
    (hr : r.cells ≠ []) : docOK (insertAt r n rows) := by
  constructor
  · apply docOK_ne_nil_of_length
    rw [length_insertAt]
    have := List.length_pos.mpr h.1
    split <;> omega
  · intro x hx
    rcases mem_insertAt r n rows x hx with rfl | hx'
    · exact hr
    · exact h.2 x hx'

theorem docOK_eraseAt {rows : List Row} (n : Nat) (h : docOK rows)
    (hlen : 2 ≤ rows.length) : docOK (eraseAt n rows) := by
  constructor
  · apply docOK_ne_nil_of_length
    rw [length_eraseAt]
    split <;> omega
  · intro x hx
    exact h.2 x (mem_eraseAt n rows x hx)

theorem rowReplace_cells_length (mode : Mode) (col : Nat) (t : List Char) (r : Row) :
    (rowReplace mode col t r).cells.length = r.cells.length := by
  simp [rowReplace]

theorem rowReplace_cells_ne_nil (mode : Mode) (col : Nat) (t : List Char) {r : Row}
    (h : r.cells ≠ []) : (rowReplace mode col t r).cells ≠ [] := by
  intro h0
  apply h
  have := rowReplace_cells_length mode col t r
  rw [h0] at this
  simpa using (List.length_eq_zero.mp this.symm)

theorem padCells_cells_ne_nil (mode : Mode) (target : Nat) {r : Row} (h : r.cells ≠ []) :
    (padCells mode target r).cells ≠ [] := by
  simp [padCells, h]

theorem insertAt_cells_ne_nil (c : Cell) (n : Nat) {l : List Cell} (h : l ≠ []) :
    insertAt c n l ≠ [] := by
  intro h0
  have := length_insertAt c n l
  rw [h0] at this
  have hl := List.length_pos.mpr h
  split at this <;> simp at this <;> omega

theorem eraseAt_cells_ne_nil (n : Nat) {l : List Cell} (h : 2 ≤ l.length) :
    eraseAt n l ≠ [] := by
  intro h0
  have := length_eraseAt n l
  rw [h0] at this
  split at this <;> simp at this <;> omega

theorem clampCol_rows (st : EState) : (clampCol st).rows = st.rows := by
  simp only [clampCol]
  split
  · rfl
  · split <;> rfl

theorem clampCol_rowIdx (st : EState) : (clampCol st).rowIdx = st.rowIdx := by
  simp only [clampCol]
  split
  · rfl
  · split <;> rfl

theorem curRow_clampCol (st : EState) : curRow (clampCol st) = curRow st := by
  simp only [curRow, clampCol_rows, clampCol_rowIdx]

theorem clampCol_col (st : EState) : (clampCol st).col =
    if (curRow st).cells.length = 0 then 0
    else if st.col ≥ (curRow st).cells.length then (curRow st).cells.length - 1
    else st.col := by
  simp only [clampCol]
  split
  · rename_i h
    simp [h]
  · rename_i h
    split
    · rename_i h2
      simp [h, h2]
    · rename_i h2
      simp [h, h2]

theorem cursorOK_clampCol {st : EState} (hdoc : docOK st.rows)
    (hidx : st.rowIdx < st.rows.length) : cursorOK (clampCol st) := by
  have hmem : curRow st ∈ st.rows := getD_mem hidx
  have hcells : (curRow st).cells ≠ [] := hdoc.2 _ hmem
  have hL : 0 < (curRow st).cells.length := List.length_pos.mpr hcells
  constructor
  · rw [clampCol_rows, clampCol_rowIdx]
    exact hidx
  · rw [curRow_clampCol, clampCol_col]
    split_ifs <;> omega

theorem modifyAt_ne_nil (f : α → α) (n : Nat) {l : List α} (h : l ≠ []) :
    modifyAt f n l ≠ [] := by
  intro h0
  apply h
  have := length_modifyAt f n l
  rw [h0] at this
  exact List.length_eq_zero.mp this.symm

theorem docOK_rowReplace (mode : Mode) (col : Nat) (t : List Char) (n : Nat) {rows : List Row}
    (h : docOK rows) : docOK (modifyAt (rowReplace mode col t) n rows) :=
  docOK_modifyAt n h fun hlt => rowReplace_cells_ne_nil mode col t (h.2 _ (getD_mem hlt))

theorem docOK_modifyTerm (t : List Char) (n : Nat) {rows : List Row} (h : docOK rows) :
    docOK (modifyAt (fun r => { r with term := t }) n rows) :=
  docOK_modifyAt n h fun hlt =>
    show (rows.getD n default).cells ≠ [] from h.2 _ (getD_mem hlt)

theorem insert_then_erase_rows (c : Cell) (col n : Nat) (rows : List Row) :
    modifyAt (fun r => { r with cells := eraseAt col r.cells }) n
      (modifyAt (fun r => { r with cells := insertAt c col r.cells }) n rows) = rows := by
  rw [modifyAt_modifyAt]
  show modifyAt (fun x : Row => { x with cells := eraseAt col (insertAt c col x.cells) }) n
      rows = rows
  have h : (fun x : Row => { x with cells := eraseAt col (insertAt c col x.cells) }) =
      fun x : Row => x := by
    funext x
    simp [eraseAt_insertAt]
  rw [h, modifyAt_id]

theorem docOK_cellsModify (g : List Cell → List Cell) (n : Nat) {rows : List Row}
    (h : docOK rows) (hg : ∀ l : List Cell, l ≠ [] → g l ≠ []) :
    docOK (modifyAt (fun r => { r with cells := g r.cells }) n rows) :=
  docOK_modifyAt n h fun hlt => hg _ (h.2 _ (getD_mem hlt))

theorem applyKey_docOK (cfg : Config) (k : Key) (st : EState) (hdoc : docOK st.rows) :
    docOK (applyKey cfg st k).rows := by
  cases k with
  | down =>
    simp only [applyKey]
    split <;> exact hdoc
  | up =>
    simp only [applyKey]
    split <;> exact hdoc
  | left =>
    simp only [applyKey]
    split <;> exact hdoc
  | right => exact hdoc
  | colHome => exact hdoc
  | colEnd => exact hdoc
  | docHome => exact hdoc
  | docEnd => exact hdoc
  | yank => exact hdoc
  | rowAfter dialog =>
    simp only [applyKey]
    cases hchk : checkWriteProtect cfg st with
    | some m => exact hdoc
    | none =>
      apply docOK_rowReplace
      apply docOK_insertAt
      · split
        · exact docOK_modifyTerm _ _ hdoc
        · exact hdoc
      · split
        · exact padCells_cells_ne_nil _ _ (by simp [NewRow])
        · simp [NewRow]
  | rowBefore dialog =>
    simp only [applyKey]
    cases hchk : checkWriteProtect cfg st with
    | some m => exact hdoc
    | none =>
      apply docOK_rowReplace
      apply docOK_insertAt
      · exact hdoc
      · split
        · exact padCells_cells_ne_nil _ _ (by simp [NewRow])
        · simp [NewRow]
  | rowDelete =>
    simp only [applyKey]
    cases hchk : checkWriteProtect cfg st with
    | some m => exact hdoc
    | none =>
      dsimp only
      split
      next hle => exact hdoc
      next hlen =>
        have h2 : 2 ≤ st.rows.length := by omega
        split
        next => exact docOK_eraseAt _ hdoc h2
        next =>
          split
          next => exact docOK_eraseAt _ hdoc h2
          next => exact docOK_modifyTerm _ _ (docOK_eraseAt _ hdoc h2)
  | cellInsert dialog =>
    simp only [applyKey]
    cases hchk : checkWriteProtectAndColumn cfg st with
    | some m => exact hdoc
    | none =>
      cases dialog with
      | none => exact hdoc
      | some t =>
        dsimp only
        split
        next => exact docOK_rowReplace _ _ _ _ hdoc
        next =>
          exact docOK_cellsModify (fun cl => insertAt (newCellFromText cfg.mode t) st.col cl)
            _ hdoc fun l hl => insertAt_cells_ne_nil _ _ hl
  | cellAppend dialog =>
    simp only [applyKey]
    cases hchk : checkWriteProtectAndColumn cfg st with
    | some m => exact hdoc
    | none =>
      dsimp only
      split
      next =>
        cases dialog with
        | none => exact hdoc
        | some t => exact docOK_rowReplace _ _ _ _ hdoc
      next =>
        cases dialog with
        | none =>
          dsimp only
          rw [insert_then_erase_rows]
          exact hdoc
        | some t =>
          exact docOK_rowReplace _ _ _ _
            (docOK_cellsModify
              (fun cl => insertAt (newCellFromText cfg.mode []) (st.col + 1) cl)
              _ hdoc fun l hl => insertAt_cells_ne_nil _ _ hl)
  | cellReplace dialog =>
    simp only [applyKey]
    cases hchk : checkWriteProtect cfg st with
    | some m => exact hdoc
    | none =>
      cases dialog with
      | none => exact hdoc
      | some t =>
        dsimp only
        split
        next =>
          exact docOK_cellsModify (fun cl => modifyAt Cell.quote st.col cl) _
            (docOK_rowReplace _ _ _ _ hdoc) fun l hl => modifyAt_ne_nil _ _ hl
        next => exact docOK_rowReplace _ _ _ _ hdoc
  | restoreKey =>
    exact docOK_cellsModify (fun cl => modifyAt Cell.restore st.col cl) _ hdoc
      fun l hl => modifyAt_ne_nil _ _ hl
  | paste =>
    simp only [applyKey]
    cases hchk : checkWriteProtect cfg st with
    | some m => exact hdoc
    | none => exact docOK_rowReplace _ _ _ _ hdoc
  | cellDelete =>
    simp only [applyKey]
    cases hchk : checkWriteProtectAndColumn cfg st with
    | some m => exact hdoc
    | none =>
      dsimp only
      split
      next => exact docOK_rowReplace _ _ _ _ hdoc
      next hg =>
        apply docOK_modifyAt _ hdoc
        intro hlt
        have h2 : 2 ≤ (st.rows.getD st.rowIdx default).cells.length := by
          simp only [curRow] at hg
          omega
        exact eraseAt_cells_ne_nil _ h2
  | quoteToggle =>
    simp only [applyKey]
    split
    next => exact docOK_rowReplace _ _ _ _ hdoc
    next =>
      exact docOK_cellsModify (fun cl => modifyAt Cell.quote st.col cl) _ hdoc
        fun l hl => modifyAt_ne_nil _ _ hl

theorem applyKey_rowIdx (cfg : Config) (k : Key) (st : EState) (hdoc : docOK st.rows)
    (hidx : st.rowIdx < st.rows.length) :
    (applyKey cfg st k).rowIdx < (applyKey cfg st k).rows.length := by
  have hpos : 0 < st.rows.length := List.length_pos.mpr hdoc.1
  cases k with
  | down =>
    simp only [applyKey]
    split
    next h => exact h
    next => exact hidx
  | up =>
    simp only [applyKey]
    split
    next =>
      dsimp only
      omega
    next => exact hidx
  | left =>
    simp only [applyKey]
    split <;> exact hidx
  | right => exact hidx
  | colHome => exact hidx
  | colEnd => exact hidx
  | docHome => exact hpos
  | docEnd =>
    dsimp only [applyKey]
    omega
  | yank => exact hidx
  | rowAfter dialog =>
    simp only [applyKey]
    cases hchk : checkWriteProtect cfg st with
    | some m => exact hidx
    | none =>
      dsimp only
      by_cases hterm : (curRow st).term = []
      · rw [if_pos hterm, length_modifyAt, length_insertAt, length_modifyAt]
        split <;> omega
      · rw [if_neg hterm, length_modifyAt, length_insertAt]
        split <;> omega
  | rowBefore dialog =>
    simp only [applyKey]
    cases hchk : checkWriteProtect cfg st with
    | some m => exact hidx
    | none =>
      dsimp only
      rw [length_modifyAt, length_insertAt]
      split <;> omega
  | rowDelete =>
    simp only [applyKey]
    cases hchk : checkWriteProtect cfg st with
    | some m => exact hidx
    | none =>
      dsimp only
      split
      next => exact hidx
      next hlen =>
        have h2 : 2 ≤ st.rows.length := by omega
        split
        next =>
          dsimp only
          rw [length_eraseAt]
          split <;> omega
        next h0 =>
          split
          next hlt => exact hlt
          next hge =>
            dsimp only
            rw [length_eraseAt, if_pos hidx] at hge
            rw [length_modifyAt, length_eraseAt, if_pos hidx]
            omega
  | cellInsert dialog =>
    simp only [applyKey]
    cases hchk : checkWriteProtectAndColumn cfg st with
    | some m => exact hidx
    | none =>
      cases dialog with
      | none => exact hidx
      | some t =>
        dsimp only
        split
        next =>
          dsimp only
          rw [length_modifyAt]
          exact hidx
        next =>
          dsimp only
          rw [length_modifyAt]
          exact hidx
  | cellAppend dialog =>
    simp only [applyKey]
    cases hchk : checkWriteProtectAndColumn cfg st with
    | some m => exact hidx
    | none =>
      dsimp only
      split
      next =>
        cases dialog with
        | none => exact hidx
        | some t =>
          dsimp only
          rw [length_modifyAt]
          exact hidx
      next =>
        cases dialog with
        | none =>
          dsimp only
          rw [insert_then_erase_rows]
          exact hidx
        | some t =>
          dsimp only
          rw [length_modifyAt, length_modifyAt]
          exact hidx
  | cellReplace dialog =>
    simp only [applyKey]
    cases hchk : checkWriteProtect cfg st with
    | some m => exact hidx
    | none =>
      cases dialog with
      | none => exact hidx
      | some t =>
        dsimp only
        split
        next =>
          dsimp only
          rw [length_modifyAt, length_modifyAt]
          exact hidx
        next =>
          dsimp only
          rw [length_modifyAt]
          exact hidx
  | restoreKey =>
    dsimp only [applyKey]
    rw [length_modifyAt]
    exact hidx
  | paste =>
    simp only [applyKey]
    cases hchk : checkWriteProtect cfg st with
    | some m => exact hidx
    | none =>
      dsimp only
      rw [length_modifyAt]
      exact hidx
  | cellDelete =>
    simp only [applyKey]
    cases hchk : checkWriteProtectAndColumn cfg st with
    | some m => exact hidx
    | none =>
      dsimp only
      split
      next =>
        dsimp only
        rw [length_modifyAt]
        exact hidx
      next =>
        dsimp only
        rw [length_modifyAt]
        exact hidx
  | quoteToggle =>
    simp only [applyKey]
    split
    next =>
      dsimp only
      rw [length_modifyAt]
      exact hidx
    next =>
      dsimp only
      rw [length_modifyAt]
      exact hidx

theorem step_inv (cfg : Config) (st : EState) (k : Key) (hdoc : docOK st.rows)
    (hidx : st.rowIdx < st.rows.length) :
    docOK (step cfg st k).rows ∧ cursorOK (step cfg st k) := by
  have hdoc' : docOK (applyKey cfg { st with msg := [] } k).rows :=
    applyKey_docOK cfg k { st with msg := [] } hdoc
  have hidx' := applyKey_rowIdx cfg k { st with msg := [] } hdoc hidx
  constructor
  · rw [step, clampCol_rows]
    exact hdoc'
  · exact cursorOK_clampCol hdoc' hidx'

theorem applyKeys_inv (cfg : Config) : ∀ (ks : List Key) (st : EState), docOK st.rows →
    cursorOK st → docOK (applyKeys cfg st ks).rows ∧ cursorOK (applyKeys cfg st ks)
  | [], _, hdoc, hcur => ⟨hdoc, hcur⟩
  | k :: ks, st, hdoc, hcur => by
    have h1 := step_inv cfg st k hdoc hcur.1
    exact applyKeys_inv cfg ks (step cfg st k) h1.1 h1.2

theorem applyKeys_docOK (cfg : Config) : ∀ (ks : List Key) (st : EState), docOK st.rows →
    docOK (applyKeys cfg st ks).rows
  | [], _, hdoc => hdoc
  | k :: ks, st, hdoc => by
    have h1 : docOK (step cfg st k).rows := by
      rw [step, clampCol_rows]
      exact applyKey_docOK cfg k { st with msg := [] } hdoc
    exact applyKeys_docOK cfg ks (step cfg st k) h1

theorem rowDelete_refused (cfg : Config) (st : EState) (h1 : st.rows.length = 1) :
    (applyKey cfg st .rowDelete).rows = st.rows ∧
      (applyKey cfg st .rowDelete).rowIdx = st.rowIdx ∧
      (applyKey cfg st .rowDelete).col = st.col := by
  simp only [applyKey]
  cases hchk : checkWriteProtect cfg st with
  | some m => exact ⟨rfl, rfl, rfl⟩
  | none =>
    dsimp only
    rw [if_pos (by omega : st.rows.length ≤ 1)]
    exact ⟨rfl, rfl, rfl⟩

theorem cellDelete_sole_cell (cfg : Config) (st : EState)
    (hidx : st.rowIdx < st.rows.length) (hc1 : (curRow st).cells.length = 1)
    (hchk : checkWriteProtectAndColumn cfg st = none) :
    (curRow (applyKey cfg st .cellDelete)).cells.length = 1 ∧
      ((curRow (applyKey cfg st .cellDelete)).cells.getD 0 default).text = [] := by
  simp only [applyKey]
  rw [hchk]
  dsimp only
  rw [if_pos (by omega : (curRow st).cells.length ≤ 1)]
  obtain ⟨a, ha⟩ := List.length_eq_one.mp hc1
  have hcur : curRow
      { st with rows := modifyAt (rowReplace cfg.mode 0 []) st.rowIdx st.rows } =
      rowReplace cfg.mode 0 [] (st.rows.getD st.rowIdx default) := by
    dsimp only [curRow]
    exact modifyAt_getD_self _ _ _ hidx
  rw [hcur]
  simp only [curRow] at ha
  simp only [rowReplace]
  rw [ha]
  simp [replaceCell]

/-- C2: structural safety of the insert/delete command set. For every
configuration and every finite key sequence, a document satisfying the
invariant — at least one row, every row at least one cell — still satisfies
it afterwards; the row-delete command `"D"` is refused without any state
change when only one row remains; and cell-delete `"d"`/`"x"` on a row's
sole remaining cell replaces it with an empty cell instead of removing it
(the row keeps exactly one cell, now with empty text). -/
theorem C2_document_invariant (cfg : Config) :
    (∀ (ks : List Key) (st : EState), docOK st.rows → docOK (applyKeys cfg st ks).rows) ∧
      (∀ st : EState, st.rows.length = 1 →
        (applyKey cfg st .rowDelete).rows = st.rows ∧
          (applyKey cfg st .rowDelete).rowIdx = st.rowIdx ∧
          (applyKey cfg st .rowDelete).col = st.col) ∧
      (∀ st : EState, st.rowIdx < st.rows.length → (curRow st).cells.length = 1 →
        checkWriteProtectAndColumn cfg st = none →
        (curRow (applyKey cfg st .cellDelete)).cells.length = 1 ∧
          ((curRow (applyKey cfg st .cellDelete)).cells.getD 0 default).text = []) :=
  ⟨fun ks st hdoc => applyKeys_docOK cfg ks st hdoc,
   fun st h1 => rowDelete_refused cfg st h1,
   fun st hidx hc1 hchk => cellDelete_sole_cell cfg st hidx hc1 hchk⟩

/-- Witness for C2 on a one-row, one-cell document. -/
theorem C2_document_invariant_witness :
    docOK (applyKeys ⟨false, false, 0, false, ⟨',', ['\n']⟩⟩
        { rows := [⟨[decodeCell ['a']], []⟩], rowIdx := 0, col := 0, kill := [], msg := [] }
        [.cellDelete, .rowDelete, .cellInsert (some ['x']), .rowAfter none]).rows ∧
      (applyKey ⟨false, false, 0, false, ⟨',', ['\n']⟩⟩
        { rows := [⟨[decodeCell ['a']], []⟩], rowIdx := 0, col := 0, kill := [], msg := [] }
        .rowDelete).rows = [⟨[decodeCell ['a']], []⟩] ∧
      (curRow (applyKey ⟨false, false, 0, false, ⟨',', ['\n']⟩⟩
        { rows := [⟨[decodeCell ['a']], []⟩], rowIdx := 0, col := 0, kill := [], msg := [] }
        .cellDelete)).cells.length = 1 := by
  have h := C2_document_invariant ⟨false, false, 0, false, ⟨',', ['\n']⟩⟩
  refine ⟨h.1 _ _ (by decide), (h.2.1 _ (by decide)).1, (h.2.2 _ (by decide) (by decide)
    (by decide)).1⟩

/-- C10: cursor-column safety. Under the precondition that the document is
well-formed (every row has at least one cell), the invariant
`rowIdx < #rows ∧ col < #cells(cursor row)` — exactly the bound needed by
the handlers `"u"`, `"y"`, `"r"`, `"\""` that index `cursorRow.Cell[cursorCol]`
directly — holds again at the start of the next iteration after any finite
sequence of commands (the clamp at the end of each iteration restores it
after any handler, the unbounded right-motion included), and the document
stays well-formed. -/
theorem C10_cursor_in_bounds (cfg : Config) (st : EState) (ks : List Key)
    (hdoc : docOK st.rows) (hcur : cursorOK st) :
    cursorOK (applyKeys cfg st ks) ∧ docOK (applyKeys cfg st ks).rows :=
  ⟨(applyKeys_inv cfg ks st hdoc hcur).2, (applyKeys_inv cfg ks st hdoc hcur).1⟩

/-- Witness for C10: the right-motion key runs past the row end and the
clamp restores the bound. -/
theorem C10_cursor_in_bounds_witness :
    cursorOK (applyKeys ⟨false, false, 0, false, ⟨',', ['\n']⟩⟩
      { rows := [⟨[decodeCell ['a']], []⟩], rowIdx := 0, col := 0, kill := [], msg := [] }
      [.right, .right, .right, .restoreKey, .quoteToggle]) := by
  have h := C10_cursor_in_bounds ⟨false, false, 0, false, ⟨',', ['\n']⟩⟩
    { rows := [⟨[decodeCell ['a']], []⟩], rowIdx := 0, col := 0, kill := [], msg := [] }
    [.right, .right, .right, .restoreKey, .quoteToggle]
    (by decide) (by decide)
  exact h.1

/-! ## Read-only protection (C4) -/

theorem checkWriteProtect_readOnly (cfg : Config) (st : EState) (hro : cfg.readOnly = true) :
    ∃ m, checkWriteProtect cfg st = some m ∧ m ≠ [] := by
  by_cases h1 : cfg.protectHeader ∧ st.rowIdx < cfg.headerLines
  · exact ⟨msgProtectHeader, by simp [checkWriteProtect, h1], by decide⟩
  · exact ⟨msgReadOnly, by simp [checkWriteProtect, h1, hro], by decide⟩

theorem checkWriteProtectAndColumn_readOnly (cfg : Config) (st : EState)
    (hro : cfg.readOnly = true) :
    ∃ m, checkWriteProtectAndColumn cfg st = some m ∧ m ≠ [] := by
  obtain ⟨m, hm, hne⟩ := checkWriteProtect_readOnly cfg st hro
  exact ⟨m, by simp [checkWriteProtectAndColumn, hm], hne⟩

/-- C4 counterexample: in read-only mode the restore command `"u"`
(src/main.go:794-795) performs no write-protect check and still mutates the
document: on a cell with original `"a"` edited to `"b"`, pressing `"u"`
changes the cell's text back to `"a"` and clears its modified flag, so a
cell's text does change under read-only mode, contradicting the claim. -/
theorem C4_counterexample :
    cfgRO.readOnly = true ∧
      ((curRow (stateOf [⟨[cellBA], []⟩])).cells.getD 0 default).text = ['b'] ∧
      ((curRow (applyKey cfgRO (stateOf [⟨[cellBA], []⟩]) .restoreKey)).cells.getD 0
          default).text = ['a'] ∧
      (applyKey cfgRO (stateOf [⟨[cellBA], []⟩]) .restoreKey).rows ≠ [⟨[cellBA], []⟩] := by
  decide

/-- C4 (amended): read-only mode blocks every mutating command that runs a
write-protect check — row insert/delete (`"o"`, `"O"`, `"D"`), cell
insert/append/replace/delete (`"i"`, `"a"`, `"r"`, `"d"`/`"x"`) and paste
(`"p"`): each short-circuits with a non-empty user-visible status message
and leaves the document rows, the cursor row and the cursor column
unchanged, whatever the document state. The restore command `"u"` and the
quote-toggle `"\""` perform no check and are not blocked (see the
counterexample: they can mutate a cell even in read-only mode). -/
theorem C4_amended (cfg : Config) (st : EState) (k : Key) (hro : cfg.readOnly = true)
    (hk : checksProtect k = true) :
    (applyKey cfg st k).rows = st.rows ∧ (applyKey cfg st k).rowIdx = st.rowIdx ∧
      (applyKey cfg st k).col = st.col ∧ (applyKey cfg st k).msg ≠ [] := by
  obtain ⟨m, hm, hne⟩ := checkWriteProtect_readOnly cfg st hro
  obtain ⟨m2, hm2, hne2⟩ := checkWriteProtectAndColumn_readOnly cfg st hro
  cases k with
  | rowAfter d =>
    simp only [applyKey]
    rw [hm]
    exact ⟨rfl, rfl, rfl, hne⟩
  | rowBefore d =>
    simp only [applyKey]
    rw [hm]
    exact ⟨rfl, rfl, rfl, hne⟩
  | rowDelete =>
    simp only [applyKey]
    rw [hm]
    exact ⟨rfl, rfl, rfl, hne⟩
  | cellInsert d =>
    simp only [applyKey]
    rw [hm2]
    exact ⟨rfl, rfl, rfl, hne2⟩
  | cellAppend d =>
    simp only [applyKey]
    rw [hm2]
    exact ⟨rfl, rfl, rfl, hne2⟩
  | cellReplace d =>
    simp only [applyKey]
    rw [hm]
    exact ⟨rfl, rfl, rfl, hne⟩
  | paste =>
    simp only [applyKey]
    rw [hm]
    exact ⟨rfl, rfl, rfl, hne⟩
  | cellDelete =>
    simp only [applyKey]
    rw [hm2]
    exact ⟨rfl, rfl, rfl, hne2⟩
  | down => simp [checksProtect] at hk
  | up => simp [checksProtect] at hk
  | left => simp [checksProtect] at hk
  | right => simp [checksProtect] at hk
  | colHome => simp [checksProtect] at hk
  | colEnd => simp [checksProtect] at hk
  | docHome => simp [checksProtect] at hk
  | docEnd => simp [checksProtect] at hk
  | yank => simp [checksProtect] at hk
  | restoreKey => simp [checksProtect] at hk
  | quoteToggle => simp [checksProtect] at hk

/-- Witness for C4 (amended): read-only blocks a paste on a concrete
document. -/
theorem C4_amended_witness :
    (applyKey cfgRO (stateOf [⟨[decodeCell ['a']], []⟩]) .paste).rows =
        [⟨[decodeCell ['a']], []⟩] ∧
      (applyKey cfgRO (stateOf [⟨[decodeCell ['a']], []⟩]) .paste).msg ≠ [] := by
  have h := C4_amended cfgRO (stateOf [⟨[decodeCell ['a']], []⟩]) .paste rfl (by decide)
  exact ⟨h.1, h.2.2.2⟩

/-! ## Sub-dialog cancellation (C6) -/

theorem rowAfter_length (cfg : Config) (st : EState) (d : Option (List Char))
    (hchk : checkWriteProtect cfg st = none) (hidx : st.rowIdx < st.rows.length) :
    (applyKey cfg st (.rowAfter d)).rows.length = st.rows.length + 1 := by
  simp only [applyKey]
  rw [hchk]
  dsimp only
  by_cases hterm : (curRow st).term = []
  · rw [if_pos hterm]
    simp only [length_modifyAt, length_insertAt]
    rw [if_pos (by omega : st.rowIdx + 1 ≤ st.rows.length)]
  · rw [if_neg hterm]
    simp only [length_modifyAt, length_insertAt]
    rw [if_pos (by omega : st.rowIdx + 1 ≤ st.rows.length)]

/-- C6 counterexample: a cancelled `"o"` (new row after) dialog does not
restore the document: the handler ignores the `ReadLine` error
(src/main.go:649 discards it), so the speculatively inserted row stays —
after cancelling, a one-row document has two rows. -/
theorem C6_counterexample :
    (applyKey cfg0 (stateOf [⟨[decodeCell ['a']], []⟩]) (.rowAfter none)).rows.length = 2 ∧
      (stateOf [⟨[decodeCell ['a']], []⟩]).rows.length = 1 := by
  decide

/-- C6 (amended): cancelling the cell-level text-entry dialogs restores the
document exactly — insert cell `"i"` and replace cell `"r"` change nothing,
and append cell `"a"` removes the empty cell it speculatively inserted and
restores the cursor column. The new-row dialogs `"o"`/`"O"` are the
exception: they ignore cancellation, so the inserted row remains (the row
count grows by one even though the dialog was cancelled). -/
theorem C6_amended (cfg : Config) (st : EState) :
    ((applyKey cfg st (.cellInsert none)).rows = st.rows ∧
        (applyKey cfg st (.cellInsert none)).rowIdx = st.rowIdx ∧
        (applyKey cfg st (.cellInsert none)).col = st.col) ∧
      ((applyKey cfg st (.cellAppend none)).rows = st.rows ∧
        (applyKey cfg st (.cellAppend none)).rowIdx = st.rowIdx ∧
        (applyKey cfg st (.cellAppend none)).col = st.col) ∧
      ((applyKey cfg st (.cellReplace none)).rows = st.rows ∧
        (applyKey cfg st (.cellReplace none)).rowIdx = st.rowIdx ∧
        (applyKey cfg st (.cellReplace none)).col = st.col) ∧
      (st.rowIdx < st.rows.length → checkWriteProtect cfg st = none →
        (applyKey cfg st (.rowAfter none)).rows.length = st.rows.length + 1) := by
  refine ⟨?_, ?_, ?_, ?_⟩
  · simp only [applyKey]
    cases hchk : checkWriteProtectAndColumn cfg st with
    | some m => exact ⟨rfl, rfl, rfl⟩
    | none => exact ⟨rfl, rfl, rfl⟩
  · simp only [applyKey]
    cases hchk : checkWriteProtectAndColumn cfg st with
    | some m => exact ⟨rfl, rfl, rfl⟩
    | none =>
      dsimp only
      split
      next => exact ⟨rfl, rfl, rfl⟩
      next =>
        refine ⟨?_, rfl, by dsimp only; omega⟩
        dsimp only
        rw [insert_then_erase_rows]
  · simp only [applyKey]
    cases hchk : checkWriteProtect cfg st with
    | some m => exact ⟨rfl, rfl, rfl⟩
    | none => exact ⟨rfl, rfl, rfl⟩
  · intro hidx hchk
    exact rowAfter_length cfg st none hchk hidx

/-- Witness for C6 (amended) on a concrete two-cell row. -/
theorem C6_amended_witness :
    (applyKey cfg0 (stateOf [⟨[decodeCell ['a'], decodeCell ['b']], []⟩])
        (.cellAppend none)).rows = [⟨[decodeCell ['a'], decodeCell ['b']], []⟩] ∧
      (applyKey cfg0 (stateOf [⟨[decodeCell ['a'], decodeCell ['b']], []⟩])
        (.rowAfter none)).rows.length = 2 := by
  have h := C6_amended cfg0 (stateOf [⟨[decodeCell ['a'], decodeCell ['b']], []⟩])
  exact ⟨h.2.1.1, h.2.2.2 (by decide) (by decide)⟩

/-! ## Search (C7) -/

theorem mem_occPositions (grid : List (List String)) (target : String) (i j : Nat) :
    (i, j) ∈ occPositions grid target ↔ occursAt grid target i j := by
  simp only [occPositions, occursAt, List.mem_flatMap, List.mem_map, List.mem_filter,
    List.mem_range, Prod.mk.injEq]
  constructor
  · rintro ⟨a, ha, b, ⟨hb, hc⟩, rfl, rfl⟩
    exact ⟨ha, hb, hc⟩
  · rintro ⟨hi, hj, hc⟩
    exact ⟨i, hi, j, ⟨hj, hc⟩, rfl, rfl⟩

theorem scanCellsFrom_sound (target : String) :
    ∀ (cells : List String) (idx j : Nat) (row : List String), cells = row.drop idx →
      scanCellsFrom target cells idx = some j →
      j < row.length ∧ containsStrS (row.getD j "") target = true
  | [], idx, j, row, hcells, h => by simp [scanCellsFrom] at h
  | cell :: rest, idx, j, row, hcells, h => by
    simp only [scanCellsFrom] at h
    by_cases hc : containsStrS cell target
    · rw [if_pos hc] at h
      injection h with h'
      subst h'
      have hne : row.drop idx ≠ [] := by
        rw [← hcells]
        simp
      have hlt : idx < row.length := by
        by_contra hge
        exact hne (List.drop_eq_nil_of_le (by omega))
      have hget : row.getD idx "" = cell := by
        have h1 : (row.drop idx)[0]? = row[idx]? := by
          rw [List.getElem?_drop]
          simp
        rw [← hcells] at h1
        simp only [List.getElem?_cons_zero] at h1
        rw [List.getD_eq_getElem?_getD, ← h1]
        rfl
      exact ⟨hlt, by rw [hget]; exact hc⟩
    · rw [if_neg hc] at h
      have hrest : rest = row.drop (idx + 1) := by
        have h2 : (row.drop idx).tail = row.drop (idx + 1) := List.tail_drop row idx
        rw [← hcells] at h2
        exact h2
      exact scanCellsFrom_sound target rest (idx + 1) j row hrest h

theorem sfRows_sound (target : String) (grid : List (List String)) :
    ∀ (rows : List (List String)) (off c r' c' : Nat), rows = grid.drop off →
      sfRows target rows off c = some (r', c') → occursAt grid target r' c'
  | [], _, _, _, _, _, h => by simp [sfRows] at h
  | row :: rest, off, c, r', c', hrows, h => by
    simp only [sfRows] at h
    cases hscan : scanCellsFrom target (row.drop c) c with
    | some j =>
      rw [hscan] at h
      simp only [Option.some.injEq, Prod.mk.injEq] at h
      obtain ⟨rfl, rfl⟩ := h
      have hne : grid.drop off ≠ [] := by
        rw [← hrows]
        simp
      have hoff : off < grid.length := by
        by_contra hge
        exact hne (List.drop_eq_nil_of_le (by omega))
      have hrow : grid.getD off [] = row := by
        have h1 : (grid.drop off)[0]? = grid[off]? := by
          rw [List.getElem?_drop]
          simp
        rw [← hrows] at h1
        simp only [List.getElem?_cons_zero] at h1
        rw [List.getD_eq_getElem?_getD, ← h1]
        rfl
      obtain ⟨hj, hcont⟩ := scanCellsFrom_sound target (row.drop c) c j row rfl hscan
      refine ⟨hoff, ?_, ?_⟩
      · rw [hrow]
        exact hj
      · rw [hrow]
        exact hcont
    | none =>
      rw [hscan] at h
      refine sfRows_sound target grid rest (off + 1) 0 r' c' ?_ h
      have h2 : (grid.drop off).tail = grid.drop (off + 1) := List.tail_drop grid off
      rw [← hrows] at h2
      exact h2

theorem scanBackAux_none (target : String) (row : List String) :
    ∀ c : Nat, (∀ j ≤ c, containsStrS (row.getD j "") target = false) →
      scanBackAux target row c = none
  | 0, h => by
    simp only [scanBackAux]
    rw [if_neg (by rw [h 0 (le_refl 0)]; simp)]
  | c + 1, h => by
    simp only [scanBackAux]
    rw [if_neg (by rw [h (c + 1) (le_refl _)]; simp)]
    exact scanBackAux_none target row c fun j hj => h j (by omega)

theorem scanBackFull_none (target : String) (row : List String)
    (h : ∀ j < row.length, containsStrS (row.getD j "") target = false) :
    scanBackFull target row = none := by
  cases row with
  | nil => rfl
  | cons a l =>
    simp only [scanBackFull]
    exact scanBackAux_none target (a :: l) _ fun j hj => h j (by
      simp only [List.length_cons] at hj ⊢
      omega)

theorem sbRows_none_take (target : String) (grid : List (List String)) :
    ∀ k : Nat, k ≤ grid.length →
      (∀ i < k, scanBackFull target (grid.getD i []) = none) →
      sbRows target ((grid.take k).reverse) = none
  | 0, _, _ => by simp [sbRows]
  | k + 1, hk, h => by
    have hklen : k < grid.length := by omega
    have htake : (grid.take (k + 1)).reverse = grid.getD k [] :: (grid.take k).reverse := by
      rw [List.take_succ, List.reverse_append]
      simp [List.getElem?_eq_getElem hklen, List.getD_eq_getElem _ _ hklen]
    rw [htake]
    simp only [sbRows]
    rw [h k (by omega)]
    exact sbRows_none_take target grid k (by omega) fun i hi => h i (by omega)

/-- C7 counterexample: on the grid `[["a","b"]]` the term `"b"` occurs
exactly once; `searchForward` from `(0,0)` finds it at `(0,1)`, but
`searchBackward` started there returns not-found (Go's `false`), not a
position equal to `(0,0)` or earlier: the backward search starts at the
cell before its starting position and so can never revisit the unique
occurrence. -/
theorem C7_counterexample :
    searchForward [["a", "b"]] 0 0 "b" = some (0, 1) ∧
      occPositions [["a", "b"]] "b" = [(0, 1)] ∧
      searchBackward [["a", "b"]] 0 1 "b" = none := by
  decide

/-- C7 (amended): on a grid in which the search term occurs exactly once,
if `searchForward` from `(r, c)` returns `(r', c')`, then `searchBackward`
started from `(r', c')` reports not-found: the backward scan visits exactly
the cells strictly before `(r', c')` in reading order, and the unique
occurrence — the very cell the backward search starts from — is excluded.
In particular it never returns any position after `(r, c)`. -/
theorem C7_amended (grid : List (List String)) (target : String) (r c r' c' : Nat)
    (hfwd : searchForward grid r c target = some (r', c'))
    (huniq : (occPositions grid target).length = 1) :
    searchBackward grid r' c' target = none := by
  have hocc : occursAt grid target r' c' :=
    sfRows_sound target grid (grid.drop r) r (c + 1) r' c' rfl hfwd
  have hmem : (r', c') ∈ occPositions grid target := (mem_occPositions grid target r' c').mpr hocc
  obtain ⟨p, hp⟩ := List.length_eq_one.mp huniq
  have hpn : p = (r', c') := by
    rw [hp] at hmem
    exact (List.mem_singleton.mp hmem).symm
  subst hpn
  have huniq' : ∀ i j, occursAt grid target i j → i = r' ∧ j = c' := by
    intro i j hij
    have hmem2 : (i, j) ∈ occPositions grid target := (mem_occPositions grid target i j).mpr hij
    rw [hp] at hmem2
    simpa [Prod.mk.injEq] using hmem2
  obtain ⟨hr', hc'len, _⟩ := hocc
  have hback_rows : sbRows target ((grid.take r').reverse) = none := by
    apply sbRows_none_take target grid r' (le_of_lt hr')
    intro i hi
    apply scanBackFull_none
    intro j hj
    by_contra hcon
    have hcon' : containsStrS ((grid.getD i []).getD j "") target = true := by
      simpa using hcon
    have heq := huniq' i j ⟨lt_trans hi hr', hj, hcon'⟩
    omega
  cases c' with
  | zero => exact hback_rows
  | succ c'' =>
    simp only [searchBackward]
    have hscan : scanBackAux target (grid.getD r' []) c'' = none := by
      apply scanBackAux_none
      intro j hj
      by_contra hcon
      have hcon' : containsStrS ((grid.getD r' []).getD j "") target = true := by
        simpa using hcon
      have heq := huniq' r' j ⟨hr', by omega, hcon'⟩
      omega
    rw [hscan]
    exact hback_rows

/-- Witness for C7 (amended) on the grid `[["a","b"]]`. -/
theorem C7_amended_witness : searchBackward [["a", "b"]] 0 1 "b" = none :=
  C7_amended [["a", "b"]] "b" 0 0 0 1 (by decide) (by decide)

/-! ## Line terminators (C9) -/

theorem getD_modifyAt [Inhabited α] (f : α → α) : ∀ (n : Nat) (l : List α) (i : Nat),
    (modifyAt f n l).getD i default =
      if i = n ∧ n < l.length then f (l.getD n default) else l.getD i default
  | n, [], i => by simp [modifyAt]
  | 0, b :: l, 0 => by simp [modifyAt]
  | 0, b :: l, i + 1 => by simp [modifyAt]
  | n + 1, b :: l, 0 => by simp [modifyAt]
  | n + 1, b :: l, i + 1 => by
    simp only [modifyAt, List.getD_cons_succ, getD_modifyAt f n l i, List.length_cons]
    by_cases h : i = n ∧ n < l.length
    · rw [if_pos h, if_pos (by omega)]
    · rw [if_neg h, if_neg (by omega)]

theorem getD_insertAt [Inhabited α] (a : α) : ∀ (n : Nat) (l : List α), n ≤ l.length →
    ∀ i : Nat, (insertAt a n l).getD i default =
      if i < n then l.getD i default
      else if i = n then a
      else l.getD (i - 1) default
  | 0, l, _, 0 => by simp [insertAt]
  | 0, l, _, i + 1 => by simp [insertAt]
  | n + 1, [], hn, i => by simp at hn
  | n + 1, b :: l, hn, 0 => by simp [insertAt]
  | n + 1, b :: l, hn, i + 1 => by
    simp only [insertAt, List.getD_cons_succ]
    rw [getD_insertAt a n l (by simpa using Nat.le_of_succ_le_succ hn) i]
    by_cases h1 : i < n
    · rw [if_pos h1, if_pos (by omega)]
    · by_cases h2 : i = n
      · rw [if_neg h1, if_pos h2, if_neg (by omega), if_pos (by omega)]
      · rw [if_neg h1, if_neg h2, if_neg (by omega), if_neg (by omega)]
        obtain ⟨i', rfl⟩ : ∃ i', i = i' + 1 := ⟨i - 1, by omega⟩
        simp [List.getD_cons_succ]

theorem getD_eraseAt [Inhabited α] : ∀ (n : Nat) (l : List α), n < l.length →
    ∀ i : Nat, (eraseAt n l).getD i default =
      if i < n then l.getD i default else l.getD (i + 1) default
  | 0, b :: l, _, i => by simp [eraseAt]
  | n + 1, [], hn, _ => by simp at hn
  | n + 1, b :: l, hn, 0 => by simp [eraseAt]
  | n + 1, b :: l, hn, i + 1 => by
    simp only [eraseAt, List.getD_cons_succ]
    rw [getD_eraseAt n l (by simpa using Nat.lt_of_succ_lt_succ hn) i]
    by_cases h : i < n
    · rw [if_pos h, if_pos (by omega)]
    · rw [if_neg h, if_neg (by omega)]

theorem term_getD_rowReplace (mode : Mode) (c : Nat) (t : List Char) (n : Nat)
    (rows : List Row) (i : Nat) :
    ((modifyAt (rowReplace mode c t) n rows).getD i default).term =
      ((rows.getD i default)).term := by
  rw [getD_modifyAt]
  split
  next h =>
    rw [h.1]
    rfl
  next => rfl

theorem rowAfter_term (cfg : Config) (st : EState) (d : Option (List Char))
    (hchk : checkWriteProtect cfg st = none) (hidx : st.rowIdx < st.rows.length) (i : Nat) :
    ((applyKey cfg st (.rowAfter d)).rows.getD i default).term =
      if i = st.rowIdx + 1 then (curRow st).term
      else if i = st.rowIdx then
        (if (curRow st).term = [] then cfg.mode.defaultTerm else (curRow st).term)
      else if i < st.rowIdx then (st.rows.getD i default).term
      else (st.rows.getD (i - 1) default).term := by
  simp only [applyKey]
  rw [hchk]
  dsimp only
  by_cases hterm : (curRow st).term = []
  · rw [if_pos hterm]
    rw [term_getD_rowReplace, getD_insertAt _ _ _ (by rw [length_modifyAt]; omega) i]
    by_cases h1 : i < st.rowIdx + 1
    · rw [if_pos h1, getD_modifyAt]
      by_cases h2 : i = st.rowIdx ∧ st.rowIdx < st.rows.length
      · rw [if_pos h2, if_neg (by omega), if_pos h2.1, if_pos hterm]
      · have hne : i ≠ st.rowIdx := by
          intro hcon
          exact h2 ⟨hcon, hidx⟩
        rw [if_neg h2, if_neg (by omega), if_neg hne, if_pos (by omega)]
    · rw [if_neg h1]
      by_cases h2 : i = st.rowIdx + 1
      · rw [if_pos h2, if_pos h2]
        split
        next => rfl
        next => rfl
      · rw [if_neg h2, if_neg h2, if_neg (by omega), if_neg (by omega), getD_modifyAt,
          if_neg (by omega)]
  · rw [if_neg hterm]
    rw [term_getD_rowReplace, getD_insertAt _ _ _ (by omega) i]
    by_cases h1 : i < st.rowIdx + 1
    · rw [if_pos h1]
      by_cases h2 : i = st.rowIdx
      · rw [if_neg (by omega), if_pos h2, if_neg hterm, h2]
        rfl
      · rw [if_neg (by omega), if_neg h2, if_pos (by omega)]
    · rw [if_neg h1]
      by_cases h2 : i = st.rowIdx + 1
      · rw [if_pos h2, if_pos h2]
        split
        next => rfl
        next => rfl
      · rw [if_neg h2, if_neg h2, if_neg (by omega), if_neg (by omega)]

theorem rowBefore_length (cfg : Config) (st : EState) (d : Option (List Char))
    (hchk : checkWriteProtect cfg st = none) (hidx : st.rowIdx < st.rows.length) :
    (applyKey cfg st (.rowBefore d)).rows.length = st.rows.length + 1 := by
  simp only [applyKey]
  rw [hchk]
  dsimp only
  simp only [length_modifyAt, length_insertAt]
  rw [if_pos (by omega : st.rowIdx ≤ st.rows.length)]

theorem rowBefore_term (cfg : Config) (st : EState) (d : Option (List Char))
    (hchk : checkWriteProtect cfg st = none) (hidx : st.rowIdx < st.rows.length) (i : Nat) :
    ((applyKey cfg st (.rowBefore d)).rows.getD i default).term =
      if i < st.rowIdx then (st.rows.getD i default).term
      else if i = st.rowIdx then cfg.mode.defaultTerm
      else (st.rows.getD (i - 1) default).term := by
  simp only [applyKey]
  rw [hchk]
  dsimp only
  rw [term_getD_rowReplace, getD_insertAt _ _ _ (by omega) i]
  by_cases h1 : i < st.rowIdx
  · rw [if_pos h1, if_pos h1]
  · rw [if_neg h1, if_neg h1]
    by_cases h2 : i = st.rowIdx
    · rw [if_pos h2, if_pos h2]
      split
      next => rfl
      next => rfl
    · rw [if_neg h2, if_neg h2]

theorem rowDelete_rows_mid (cfg : Config) (st : EState)
    (hchk : checkWriteProtect cfg st = none) (hlen : 2 ≤ st.rows.length)
    (hmid : st.rowIdx < st.rows.length - 1) :
    (applyKey cfg st .rowDelete).rows = eraseAt st.rowIdx st.rows := by
  simp only [applyKey]
  rw [hchk]
  dsimp only
  rw [if_neg (by omega)]
  split
  next => rfl
  next =>
    split
    next => rfl
    next hge =>
      exfalso
      rw [length_eraseAt, if_pos (by omega)] at hge
      omega

theorem rowDelete_rows_last (cfg : Config) (st : EState)
    (hchk : checkWriteProtect cfg st = none) (hlen : 2 ≤ st.rows.length)
    (hlast : st.rowIdx + 1 = st.rows.length) :
    (applyKey cfg st .rowDelete).rows =
      modifyAt (fun r => { r with term := (curRow st).term }) (st.rowIdx - 1)
        (eraseAt st.rowIdx st.rows) ∧
      (applyKey cfg st .rowDelete).rowIdx = st.rowIdx - 1 := by
  simp only [applyKey]
  rw [hchk]
  dsimp only
  rw [if_neg (by omega)]
  split
  next h0 => exact absurd h0 (by omega)
  next h0 =>
    split
    next hlt =>
      exfalso
      rw [length_eraseAt, if_pos (by omega)] at hlt
      omega
    next => exact ⟨rfl, rfl⟩

/-- C9: the row-level structural commands preserve the invariant that a row
carries an empty (end-of-file) line terminator only when it is the last row
of the document, provided the mode's default terminator is a real
terminator. Moreover, inserting after the current last row (`"o"`) gives
the new row the old empty terminator and assigns the default terminator to
the former last row, and deleting the last row (`"D"`) transfers the
removed row's terminator to the new last row (the new cursor row). -/
theorem C9_terminator_invariant (cfg : Config) (hdef : cfg.mode.defaultTerm ≠ []) :
    (∀ (st : EState) (d : Option (List Char)), st.rowIdx < st.rows.length →
      termOK st.rows → termOK (applyKey cfg st (.rowAfter d)).rows) ∧
      (∀ (st : EState) (d : Option (List Char)), st.rowIdx < st.rows.length →
        termOK st.rows → termOK (applyKey cfg st (.rowBefore d)).rows) ∧
      (∀ st : EState, st.rowIdx < st.rows.length → termOK st.rows →
        termOK (applyKey cfg st .rowDelete).rows) ∧
      (∀ (st : EState) (d : Option (List Char)), checkWriteProtect cfg st = none →
        st.rowIdx + 1 = st.rows.length → (curRow st).term = [] →
        ((applyKey cfg st (.rowAfter d)).rows.getD (st.rowIdx + 1) default).term = [] ∧
          ((applyKey cfg st (.rowAfter d)).rows.getD st.rowIdx default).term =
            cfg.mode.defaultTerm) ∧
      (∀ st : EState, checkWriteProtect cfg st = none → 2 ≤ st.rows.length →
        st.rowIdx + 1 = st.rows.length →
        ((applyKey cfg st .rowDelete).rows.getD ((applyKey cfg st .rowDelete).rowIdx)
          default).term = (curRow st).term) := by
  refine ⟨?_, ?_, ?_, ?_, ?_⟩
  · intro st d hidx ht
    cases hchk : checkWriteProtect cfg st with
    | some m =>
      simp only [applyKey]
      rw [hchk]
      exact ht
    | none =>
      intro j hj
      rw [rowAfter_length cfg st d hchk hidx] at hj
      rw [rowAfter_term cfg st d hchk hidx j]
      split_ifs with h1 h2 h3 h4
      · simp only [curRow]
        exact ht st.rowIdx (by omega)
      · exact hdef
      · exact h3
      · exact ht j (by omega)
      · exact ht (j - 1) (by omega)
  · intro st d hidx ht
    cases hchk : checkWriteProtect cfg st with
    | some m =>
      simp only [applyKey]
      rw [hchk]
      exact ht
    | none =>
      intro j hj
      rw [rowBefore_length cfg st d hchk hidx] at hj
      rw [rowBefore_term cfg st d hchk hidx j]
      split_ifs with h1 h2
      · exact ht j (by omega)
      · exact hdef
      · exact ht (j - 1) (by omega)
  · intro st hidx ht
    cases hchk : checkWriteProtect cfg st with
    | some m =>
      simp only [applyKey]
      rw [hchk]
      exact ht
    | none =>
      by_cases hlen : st.rows.length ≤ 1
      · simp only [applyKey]
        rw [hchk]
        dsimp only
        rw [if_pos hlen]
        exact ht
      · by_cases hmid : st.rowIdx < st.rows.length - 1
        · rw [rowDelete_rows_mid cfg st hchk (by omega) hmid]
          intro j hj
          rw [length_eraseAt, if_pos hidx] at hj
          rw [getD_eraseAt _ _ hidx j]
          split_ifs with h1
          · exact ht j (by omega)
          · exact ht (j + 1) (by omega)
        · obtain ⟨hrows, _⟩ := rowDelete_rows_last cfg st hchk (by omega) (by omega)
          rw [hrows]
          intro j hj
          rw [length_modifyAt, length_eraseAt, if_pos hidx] at hj
          rw [getD_modifyAt, if_neg (by omega), getD_eraseAt _ _ hidx j,
            if_pos (by omega)]
          exact ht j (by omega)
  · intro st d hchk hlast hterm
    constructor
    · rw [rowAfter_term cfg st d hchk (by omega) (st.rowIdx + 1), if_pos rfl]
      exact hterm
    · rw [rowAfter_term cfg st d hchk (by omega) st.rowIdx, if_neg (by omega), if_pos rfl,
        if_pos hterm]
  · intro st hchk hlen hlast
    obtain ⟨hrows, hrowIdx⟩ := rowDelete_rows_last cfg st hchk hlen hlast
    rw [hrows, hrowIdx]
    rw [getD_modifyAt,
      if_pos ⟨rfl, by rw [length_eraseAt, if_pos (by omega)]; omega⟩]

/-- Witness for C9 on a concrete two-row document `"a\nb"` whose last row
has no terminator. -/
theorem C9_terminator_invariant_witness :
    termOK (applyKey cfg0 { stateOf (decodeDoc mode0 ['a', '\n', 'b']) with rowIdx := 1 }
        (.rowAfter (some ['x']))).rows ∧
      ((applyKey cfg0 { stateOf (decodeDoc mode0 ['a', '\n', 'b']) with rowIdx := 1 }
        .rowDelete).rows.getD 0 default).term = [] := by
  have h := C9_terminator_invariant cfg0 (by decide)
  constructor
  · exact h.1 { stateOf (decodeDoc mode0 ['a', '\n', 'b']) with rowIdx := 1 } (some ['x'])
      (by decide) (by decide)
  · have h5 := h.2.2.2.2 { stateOf (decodeDoc mode0 ['a', '\n', 'b']) with rowIdx := 1 }
      (by decide) (by decide) (by decide)
    exact h5

/-! ## The per-line render cache (C8) -/

theorem mem_enumFrom_le : ∀ (l : List α) (n : Nat) (p : Nat × α),
    p ∈ List.enumFrom n l → n ≤ p.1
  | [], _, _, h => by simp [List.enumFrom] at h
  | a :: l, n, p, h => by
    simp only [List.enumFrom, List.mem_cons] at h
    rcases h with rfl | h
    · exact le_refl _
    · exact le_of_lt (lt_of_lt_of_le (Nat.lt_succ_self n) (mem_enumFrom_le l (n + 1) p h))

theorem drawPageCached_agrees : ∀ (frame : List String) (i : Nat) (s c : Nat → String)
    (ws : List Nat), (∀ j, c j = s j) →
    (drawPageCached frame i (s, c, ws)).1 = drawPageFull frame i s ∧
      ∀ j, (drawPageCached frame i (s, c, ws)).2.1 j = (drawPageCached frame i (s, c, ws)).1 j
  | [], _, _, _, _, h => ⟨rfl, h⟩
  | l :: rest, i, s, c, ws, h => by
    simp only [drawPageCached, drawPageFull, renderLine]
    by_cases hc : c i = l
    · rw [if_pos hc]
      have hs : (fun j => if j = i then l else s j) = s := by
        funext j
        split
        next hj =>
          subst hj
          rw [← h j, hc]
        next => rfl
      rw [hs]
      exact drawPageCached_agrees rest (i + 1) s c ws h
    · rw [if_neg hc]
      refine drawPageCached_agrees rest (i + 1) _ _ _ ?_
      intro j
      dsimp only
      split
      next => rfl
      next => exact h j

theorem framesCached_agrees : ∀ (frames : List (List String)) (s c : Nat → String),
    (∀ j, c j = s j) →
    (framesCached frames (s, c)).1 = framesFull frames s ∧
      ∀ j, (framesCached frames (s, c)).2 j = (framesCached frames (s, c)).1 j
  | [], _, _, h => ⟨rfl, h⟩
  | f :: fs, s, c, h => by
    obtain ⟨h1, h2⟩ := drawPageCached_agrees f 0 s c [] h
    have ih := framesCached_agrees fs (drawPageCached f 0 (s, c, [])).1
      (drawPageCached f 0 (s, c, [])).2.1 h2
    simp only [framesCached, framesFull]
    rw [← h1]
    exact ih

theorem drawPageCached_writes : ∀ (frame : List String) (i : Nat) (s c : Nat → String)
    (ws : List Nat),
    (drawPageCached frame i (s, c, ws)).2.2 =
      ws ++ ((List.enumFrom i frame).filter fun p => c p.1 != p.2).map Prod.fst
  | [], i, _, _, ws => by simp [drawPageCached, List.enumFrom]
  | l :: rest, i, s, c, ws => by
    simp only [drawPageCached, renderLine, List.enumFrom]
    by_cases hc : c i = l
    · rw [if_pos hc]
      rw [drawPageCached_writes rest (i + 1) s c ws]
      simp [hc]
    · rw [if_neg hc]
      rw [drawPageCached_writes rest (i + 1) (fun j => if j = i then l else s j)
        (fun j => if j = i then l else c j) (ws ++ [i])]
      have hcong : ∀ p ∈ List.enumFrom (i + 1) rest,
          ((fun j => if j = i then l else c j) p.1 != p.2) = (c p.1 != p.2) := by
        intro p hp
        have hle : i + 1 ≤ p.1 := mem_enumFrom_le rest (i + 1) p hp
        simp only []
        rw [if_neg (by omega)]
      rw [List.filter_congr hcong]
      have hne : (c i != l) = true := by
        simp [hc]
      simp only [List.filter_cons, hne, if_true, List.map_cons]
      simp [List.append_assoc]

/-- C8: the page renderer writes a screen line if and only if the freshly
rendered in-memory content differs from the cache entry for that screen-row
index, then stores the new content in the cache; consequently, over every
sequence of frames, the terminal content produced with the cache is
pointwise identical to what a cache-free full redraw of every frame would
produce, and the cache always mirrors the screen. The write trace of one
frame is exactly the set of row indices whose rendered content differs from
the cache at the start of the frame. -/
theorem C8_render_cache (frames : List (List String)) (s c : Nat → String)
    (h : ∀ j, c j = s j) :
    ((framesCached frames (s, c)).1 = framesFull frames s ∧
        ∀ j, (framesCached frames (s, c)).2 j = (framesCached frames (s, c)).1 j) ∧
      ∀ (frame : List String) (i : Nat) (s' c' : Nat → String) (ws : List Nat),
        (drawPageCached frame i (s', c', ws)).2.2 =
          ws ++ ((List.enumFrom i frame).filter fun p => c' p.1 != p.2).map Prod.fst :=
  ⟨framesCached_agrees frames s c h,
   fun frame i s' c' ws => drawPageCached_writes frame i s' c' ws⟩

/-- Witness for C8: two frames drawn from a blank screen and empty cache
end in the same terminal content as the cache-free redraw. -/
theorem C8_render_cache_witness :
    (framesCached [["x"], ["y", "z"]] ((fun _ => ""), fun _ => "")).1 =
      framesFull [["x"], ["y", "z"]] (fun _ => "") :=
  (C8_render_cache [["x"], ["y", "z"]] (fun _ => "") (fun _ => "") fun _ => rfl).1.1

end Csvi
